import Mathlib

/-!
# The streaming server of `tcp-stream-server.cc`

A shallow embedding of `TcpStreamServer` (src/model/tcp-stream-server.cc): the
request decoder `GetCommand`, the per-connection record `callbackData`, and the
callbacks `HandleAccept`, `HandleRead` and `HandleSend`.

Conventions of the embedding:
* bytes are natural numbers (a packet is a `List Nat` of values below 256);
* the unsigned counters of a session are natural numbers, reduced modulo
  `2 ^ bits` wherever the C++ code stores into them;
* `NS_ABORT_MSG` and a failing `NS_ASSERT` end the run: the callbacks return
  `Except Abort _`;
* what a callback asks of its socket is an argument: the capacity reported by
  `GetTxAvailable`, and the answer of `Send` as a function of the number of
  bytes offered.
-/

namespace Dash

/-! ## Data model -/

/-- Modelled from the spec: `struct callbackData` is declared in
tcp-stream-server.h, which is not among the sources. The spec's data model
gives `segmentIndex` as an unsigned integer and `requestedSize`, `sentBytes` as
non-negative integers; the widths in bits of these unsigned fields are taken
as parameters. -/
structure FieldWidths where
  /-- Width of `currentTxBytes` and of `packetSizeToReturn`. -/
  byteCountBits : Nat
  /-- Width of `currentSegmentIndex`. -/
  segmentIndexBits : Nat
deriving DecidableEq, Repr

/-- The per-connection record `callbackData`, read and written as
`m_callbackData [from]`. -/
structure callbackData where
  currentTxBytes : Nat
  packetSizeToReturn : Nat
  send : Bool
  currentSegmentIndex : Nat
deriving DecidableEq, Repr

/-- Every field holds a value of its unsigned type. -/
def callbackData.wellTyped (W : FieldWidths) (cbd : callbackData) : Prop :=
  cbd.currentTxBytes < 2 ^ W.byteCountBits ∧
  cbd.packetSizeToReturn < 2 ^ W.byteCountBits ∧
  cbd.currentSegmentIndex < 2 ^ W.segmentIndexBits

instance (W : FieldWidths) (cbd : callbackData) : Decidable (cbd.wellTyped W) := by
  unfold callbackData.wellTyped
  infer_instance

/-- The ways a callback ends the run. -/
inductive Abort where
  /-- `NS_ABORT_MSG` of `HandleRead`: "Server received request from ... before
  previous one was completed". -/
  | requestBeforeCompletion
  /-- `NS_ABORT_MSG` of `HandleSend`: "Server has sent more data than required
  for the current segment." -/
  | sentMoreThanRequired
  /-- `NS_ASSERT (currentTxBytes == 0)` in the idle branch of `HandleSend`. -/
  | idleWithTxBytes
deriving DecidableEq, Repr

/-- What one invocation of `HandleSend` did besides updating the record. -/
structure SendRecord where
  /-- Sizes of the packets passed to `socket->Send`, in order. -/
  offered : List Nat
  /-- The positive `amountSent` added to `currentTxBytes` (0 when none was). -/
  added : Nat
  /-- The completion branch was taken. -/
  completed : Bool
deriving DecidableEq, Repr

/-! ## GetCommand -/

/-- The `std::isspace` of the "C" locale, which `ss >> str` uses to delimit. -/
def isspace (c : Nat) : Bool := c == 32 || (9 ≤ c && c ≤ 13)

/-- A decimal digit character. -/
def isdigit (c : Nat) : Bool := 48 ≤ c && c ≤ 57

/-- What C++ leaves indeterminate in `GetCommand`: the bytes that follow the
buffer `new uint8_t [packet->GetSize ()]` in memory, which `ss << buffer` reads
when the packet holds no NUL byte, and the initial value of the local
`packetSizeToReturn`, which is returned when the extraction stores nothing. -/
structure Indeterminate where
  afterBuffer : List Nat
  uninitialised : Int

/-- The characters `ss << buffer` inserts: `buffer` is a `uint8_t *`, written as
a C string, that is up to the first NUL byte. -/
def cString (buffer afterBuffer : List Nat) : List Nat :=
  (buffer ++ afterBuffer).takeWhile (fun c => c != 0)

/-- The word `ss >> str` extracts: leading whitespace is skipped, then
characters are taken up to the next whitespace or the end. -/
def extractWord (s : List Nat) : List Nat :=
  (s.dropWhile isspace).takeWhile (fun c => !isspace c)

/-- Value of a string of decimal digit characters. -/
def digitsValue (ds : List Nat) : Nat :=
  ds.foldl (fun acc c => 10 * acc + (c - 48)) 0

/-- The extraction `convert >> packetSizeToReturn` into an `int64_t`: on an
empty stream nothing is stored; otherwise an optional sign and the longest run
of digits are read, 0 is stored when there is no digit, and a value out of
range is stored as the nearest bound. -/
def extractInt64 (str : List Nat) (uninitialised : Int) : Int :=
  match str with
  | [] => uninitialised
  | c :: rest =>
    let negative := c == 45
    let body := if c == 43 || c == 45 then rest else c :: rest
    let ds := body.takeWhile isdigit
    if ds.isEmpty then 0
    else
      let v : Int := (digitsValue ds : Nat)
      if negative then (if v > 2 ^ 63 then -(2 ^ 63) else -v)
      else (if v ≥ 2 ^ 63 then 2 ^ 63 - 1 else v)

/-- The decoder `TcpStreamServer::GetCommand`. -/
def GetCommand (packet : List Nat) (ind : Indeterminate) : Int :=
  let str := extractWord (cString packet ind.afterBuffer)
  extractInt64 str ind.uninitialised

/-- Spec-side encoding of a request: the decimal text of `n`, most significant
digit first, as character codes. -/
def decimalText (n : Nat) : List Nat :=
  if n = 0 then [48] else ((Nat.digits 10 n).reverse).map (fun d => d + 48)

/-- Spec-side reading of "parses as a whitespace-delimited decimal integer":
optional whitespace, one or more digits, optional whitespace. -/
def isDecimalRequest (s : List Nat) : Bool :=
  let body := s.dropWhile isspace
  let word := body.takeWhile (fun c => !isspace c)
  let rest := body.dropWhile (fun c => !isspace c)
  !word.isEmpty && word.all isdigit && rest.all isspace

/-! ## The callbacks, on one session record -/

/-- The body of `TcpStreamServer::HandleSend` on the record
`m_callbackData [from]`. `txSpace` is the `uint32_t` argument, `Send n` the
`int` that `socket->Send` returns for a packet of `n` bytes. The packet is
filled with the low byte of `currentSegmentIndex`; only its size is kept. -/
def callbackData.HandleSend (W : FieldWidths) (cbd : callbackData) (txSpace : Nat)
    (Send : Nat → Int) : Except Abort (callbackData × SendRecord) :=
  if cbd.currentTxBytes > cbd.packetSizeToReturn then
    .error .sentMoreThanRequired
  else if !cbd.send then
    if cbd.currentTxBytes == 0 then .ok (cbd, ⟨[], 0, false⟩)
    else .error .idleWithTxBytes
  else if cbd.currentTxBytes == cbd.packetSizeToReturn then
    .ok ({ currentTxBytes := 0
           packetSizeToReturn := 0
           send := false
           currentSegmentIndex := (cbd.currentSegmentIndex + 1) % 2 ^ W.segmentIndexBits },
         ⟨[], 0, true⟩)
  else if txSpace > 0 then
    let remainingSegmentBytes := (cbd.packetSizeToReturn - cbd.currentTxBytes) % 2 ^ 32
    let toSend := min txSpace remainingSegmentBytes
    let amountSent := Send toSend
    if amountSent > 0 then
      .ok ({ cbd with
             currentTxBytes := (cbd.currentTxBytes + amountSent.toNat) % 2 ^ W.byteCountBits },
           ⟨[toSend], amountSent.toNat, false⟩)
    else
      .ok (cbd, ⟨[toSend], 0, false⟩)
  else
    .ok (cbd, ⟨[], 0, false⟩)

/-- The body of `TcpStreamServer::HandleRead` on the record
`m_callbackData [from]`: decode the request, abort when one is outstanding,
store the request and call `HandleSend` with `socket->GetTxAvailable ()`. -/
def callbackData.HandleRead (W : FieldWidths) (cbd : callbackData) (packet : List Nat)
    (ind : Indeterminate) (txAvailable : Nat) (Send : Nat → Int) :
    Except Abort (callbackData × SendRecord) :=
  let packetSizeToReturn := GetCommand packet ind
  if cbd.send || cbd.currentTxBytes > 0 then
    .error .requestBeforeCompletion
  else
    let cbd1 : callbackData :=
      { cbd with
        currentTxBytes := 0
        packetSizeToReturn := (packetSizeToReturn % 2 ^ W.byteCountBits).toNat
        send := true }
    cbd1.HandleSend W txAvailable Send

/-- One capacity event: the `txSpace` passed to `HandleSend` and the answer of
`socket->Send` during that invocation. -/
structure Capacity where
  txSpace : Nat
  Send : Nat → Int

/-- The transport accepts at most the number of bytes it is offered. -/
def Capacity.atMostOffered (cap : Capacity) : Prop := ∀ n, cap.Send n ≤ (n : Int)

/-- Successive `HandleSend` invocations on one record, with their records. -/
def callbackData.sendAll (W : FieldWidths) (cbd : callbackData) :
    List Capacity → Except Abort (callbackData × List SendRecord)
  | [] => .ok (cbd, [])
  | cap :: caps =>
    match cbd.HandleSend W cap.txSpace cap.Send with
    | .error e => .error e
    | .ok (cbd1, r) =>
      match callbackData.sendAll W cbd1 caps with
      | .error e => .error e
      | .ok (cbd2, rs) => .ok (cbd2, r :: rs)

/-! ## Properties of a session record -/

/-- An idle record has both byte counters at 0. -/
def callbackData.idleClear (cbd : callbackData) : Prop :=
  cbd.send = false → cbd.currentTxBytes = 0 ∧ cbd.packetSizeToReturn = 0

/-- The bytes sent do not exceed the bytes requested, which fit their type. -/
def callbackData.withinRequest (W : FieldWidths) (cbd : callbackData) : Prop :=
  cbd.currentTxBytes ≤ cbd.packetSizeToReturn ∧ cbd.packetSizeToReturn < 2 ^ W.byteCountBits

/-! ## The server -/

/-- A peer address, the key of `m_callbackData`. -/
abbrev Address := Nat

/-- The members of `TcpStreamServer` that the callbacks use. -/
structure TcpStreamServer where
  /-- The `std::map <Address, callbackData>`. -/
  m_callbackData : Address → Option callbackData
  /-- The `std::vector <Address>`. -/
  m_connectedClients : List Address

/-- The server as constructed: no session, no client. -/
def TcpStreamServer.initial : TcpStreamServer :=
  { m_callbackData := fun _ => none, m_connectedClients := [] }

/-- The record `m_callbackData [from]`: `operator[]` of `std::map` yields a
value-initialised record for a key that is absent. -/
def TcpStreamServer.session (srv : TcpStreamServer) (peer : Address) : callbackData :=
  (srv.m_callbackData peer).getD ⟨0, 0, false, 0⟩

/-- Writing the record `m_callbackData [from]`. -/
def TcpStreamServer.store (srv : TcpStreamServer) (peer : Address) (cbd : callbackData) :
    TcpStreamServer :=
  { srv with m_callbackData := Function.update srv.m_callbackData peer (some cbd) }

/-- The callback `TcpStreamServer::HandleAccept`. -/
def TcpStreamServer.HandleAccept (srv : TcpStreamServer) (peer : Address) : TcpStreamServer :=
  { m_callbackData := Function.update srv.m_callbackData peer (some ⟨0, 0, false, 0⟩)
    m_connectedClients := srv.m_connectedClients ++ [peer] }

/-- The callback `TcpStreamServer::HandleSend` for the socket whose peer is
`peer`. -/
def TcpStreamServer.HandleSend (W : FieldWidths) (srv : TcpStreamServer) (peer : Address)
    (txSpace : Nat) (Send : Nat → Int) : Except Abort (TcpStreamServer × SendRecord) :=
  match (srv.session peer).HandleSend W txSpace Send with
  | .error e => .error e
  | .ok (cbd, r) => .ok (srv.store peer cbd, r)

/-- The callback `TcpStreamServer::HandleRead` for a packet received from
`peer`. -/
def TcpStreamServer.HandleRead (W : FieldWidths) (srv : TcpStreamServer) (peer : Address)
    (packet : List Nat) (ind : Indeterminate) (txAvailable : Nat) (Send : Nat → Int) :
    Except Abort (TcpStreamServer × SendRecord) :=
  match (srv.session peer).HandleRead W packet ind txAvailable Send with
  | .error e => .error e
  | .ok (cbd, r) => .ok (srv.store peer cbd, r)

/-- The events the simulator delivers to the callbacks modelled here. -/
inductive Event where
  | accept (peer : Address)
  | read (peer : Address) (packet : List Nat) (ind : Indeterminate) (cap : Capacity)
  | send (peer : Address) (cap : Capacity)

/-- The transport of an event accepts at most what it is offered. -/
def Event.atMostOffered : Event → Prop
  | .accept _ => True
  | .read _ _ _ cap => cap.atMostOffered
  | .send _ cap => cap.atMostOffered

/-- Delivery of one event. -/
def TcpStreamServer.step (W : FieldWidths) (srv : TcpStreamServer) :
    Event → Except Abort TcpStreamServer
  | .accept peer => .ok (srv.HandleAccept peer)
  | .read peer packet ind cap =>
    match srv.HandleRead W peer packet ind cap.txSpace cap.Send with
    | .error e => .error e
    | .ok (srv1, _) => .ok srv1
  | .send peer cap =>
    match srv.HandleSend W peer cap.txSpace cap.Send with
    | .error e => .error e
    | .ok (srv1, _) => .ok srv1

/-- Delivery of a sequence of events, up to the first abort. -/
def TcpStreamServer.run (W : FieldWidths) (srv : TcpStreamServer) :
    List Event → Except Abort TcpStreamServer
  | [] => .ok srv
  | e :: es =>
    match srv.step W e with
    | .error a => .error a
    | .ok srv1 => TcpStreamServer.run W srv1 es

/-! ## Closing connections -/

/-- The loop of `HandlePeerClose` over `m_connectedClients`: the first entry
equal to `peer` is erased; `none` when the loop ends without finding one. -/
def eraseFirst (peer : Address) : List Address → Option (List Address)
  | [] => none
  | a :: rest => if a = peer then some rest else (eraseFirst peer rest).map (fun l => a :: l)

/-- The callback `TcpStreamServer::HandlePeerClose` for the socket whose peer
is `peer`; the flag tells whether `Simulator::Stop ()` was called. -/
def TcpStreamServer.HandlePeerClose (srv : TcpStreamServer) (peer : Address) :
    TcpStreamServer × Bool :=
  match eraseFirst peer srv.m_connectedClients with
  | some clients => ({ srv with m_connectedClients := clients }, clients.length == 0)
  | none => (srv, false)

/-- Successive `HandlePeerClose` events, with the flag of each. -/
def TcpStreamServer.closeAll (srv : TcpStreamServer) : List Address → TcpStreamServer × List Bool
  | [] => (srv, [])
  | peer :: peers =>
    let first := srv.HandlePeerClose peer
    let later := TcpStreamServer.closeAll first.1 peers
    (later.1, first.2 :: later.2)

/-- Successive `HandleAccept` events on a new server. -/
def TcpStreamServer.acceptAll (conns : List Address) : TcpStreamServer :=
  conns.foldl TcpStreamServer.HandleAccept TcpStreamServer.initial

/-! ## Starting the application -/

/-- The local addresses `StartApplication` binds to: `Ipv4Address::GetAny ()`
and `Ipv6Address::GetAny ()`. -/
inductive AnyAddress where
  | ipv4
  | ipv6
deriving DecidableEq, Repr

/-- What `StartApplication` does to a socket: the endpoint of the last `Bind`
and whether `Listen` was called. -/
structure Socket where
  bound : Option (AnyAddress × Nat)
  listening : Bool
deriving DecidableEq, Repr

/-- The socket returned by `Socket::CreateSocket`. -/
def Socket.CreateSocket : Socket := { bound := none, listening := false }

/-- The call `socket->Bind (local)`; its result is not looked at. -/
def Socket.Bind (s : Socket) (addr : AnyAddress) (port : Nat) : Socket :=
  { s with bound := some (addr, port) }

/-- The call `socket->Listen ()`. -/
def Socket.Listen (s : Socket) : Socket := { s with listening := true }

/-- The members of `TcpStreamServer` that `StartApplication` uses; a null
`Ptr<Socket>` is `none`. -/
structure Listeners where
  m_port : Nat
  m_socket : Option Socket
  m_socket6 : Option Socket
deriving DecidableEq, Repr

/-- The method `TcpStreamServer::StartApplication`, up to the installation of
the callbacks on `m_socket`. In the second block the source calls
`m_socket->Listen ()`. -/
def StartApplication (app : Listeners) : Listeners :=
  let app1 : Listeners :=
    match app.m_socket with
    | none =>
      { app with m_socket := some ((Socket.CreateSocket.Bind .ipv4 app.m_port).Listen) }
    | some _ => app
  match app1.m_socket6 with
  | none =>
    { app1 with
      m_socket6 := some (Socket.CreateSocket.Bind .ipv6 app1.m_port)
      m_socket := app1.m_socket.map Socket.Listen }
  | some _ => app1

/-! ## Scenarios -/

/-- The transport takes between 1 byte and all the bytes it is offered, and
the capacity reported is at least 1. -/
def Capacity.acceptsSome (cap : Capacity) : Prop :=
  1 ≤ cap.txSpace ∧ ∀ n, 1 ≤ n → 1 ≤ cap.Send n ∧ cap.Send n ≤ (n : Int)

/-- Scenario A: `peer` is accepted and requests 500000 bytes while the socket
reports no capacity; `events` capacity events follow, each with room for 1000
bytes, all of which the transport takes. -/
def scenarioA (peer : Address) (ind : Indeterminate) (events : Nat) : List Event :=
  .accept peer :: .read peer [53, 48, 48, 48, 48, 48, 0] ind ⟨0, fun n => n⟩ ::
    (List.replicate events (⟨1000, fun n => n⟩ : Capacity)).map (Event.send peer)

/-! ## Single steps -/

/-- C3: a request that arrives while the session's `send` flag is set makes
`HandleRead` abort with "Server received request ... before previous one was
completed", whatever the packet decodes to; no new segment is started. -/
theorem HandleRead_while_sending_aborts (W : FieldWidths) (srv : TcpStreamServer)
    (peer : Address) (packet : List Nat) (ind : Indeterminate) (txAvailable : Nat)
    (Send : Nat → Int) (hsend : (srv.session peer).send = true) :
    srv.HandleRead W peer packet ind txAvailable Send = .error .requestBeforeCompletion := by
  simp [TcpStreamServer.HandleRead, callbackData.HandleRead, hsend]

/-- Witness of C3: a session that is sending 5 bytes receives the request
"7". -/
theorem HandleRead_while_sending_aborts_witness :
    (TcpStreamServer.initial.store 1 ⟨2, 5, true, 0⟩).HandleRead ⟨32, 32⟩ 1 [55, 0] ⟨[], 0⟩ 10
      (fun n => n) = .error .requestBeforeCompletion :=
  HandleRead_while_sending_aborts ⟨32, 32⟩ (TcpStreamServer.initial.store 1 ⟨2, 5, true, 0⟩) 1
    [55, 0] ⟨[], 0⟩ 10 (fun n => n) rfl

/-- C4: when `HandleSend` passes a packet to `socket->Send`, its size is
`min (txSpace, packetSizeToReturn - currentTxBytes)`, so it exceeds neither the
bytes that remain of the segment nor the reported capacity. The byte counters
are unsigned fields of at most 32 bits, as the `uint32_t` local
`remainingSegmentBytes` that receives their difference presupposes. -/
theorem HandleSend_offers_min (W : FieldWidths) (cbd cbd1 : callbackData) (txSpace : Nat)
    (Send : Nat → Int) (r : SendRecord) (n : Nat)
    (hW : W.byteCountBits ≤ 32) (hT : cbd.wellTyped W)
    (h : cbd.HandleSend W txSpace Send = .ok (cbd1, r)) (hn : n ∈ r.offered) :
    n = min txSpace (cbd.packetSizeToReturn - cbd.currentTxBytes) ∧
    n ≤ cbd.packetSizeToReturn - cbd.currentTxBytes ∧ n ≤ txSpace := by
  have hp : cbd.packetSizeToReturn - cbd.currentTxBytes < 2 ^ 32 := by
    have h1 : cbd.packetSizeToReturn < 2 ^ W.byteCountBits := hT.2.1
    have h2 : 2 ^ W.byteCountBits ≤ 2 ^ 32 := Nat.pow_le_pow_right (by norm_num) hW
    omega
  have hmod : (cbd.packetSizeToReturn - cbd.currentTxBytes) % 2 ^ 32
      = cbd.packetSizeToReturn - cbd.currentTxBytes := Nat.mod_eq_of_lt hp
  simp only [callbackData.HandleSend] at h
  split_ifs at h <;> simp only [Except.ok.injEq, Prod.mk.injEq, reduceCtorEq] at h
  all_goals
    obtain ⟨-, rfl⟩ := h
    simp only [List.mem_singleton, List.not_mem_nil] at hn
  all_goals
    subst hn
    rw [hmod]
    exact ⟨rfl, Nat.min_le_right _ _, Nat.min_le_left _ _⟩

/-- Witness of C4: 300 bytes remain of a 1000-byte segment and the socket
reports room for 120; the packet offered has 120 bytes. -/
theorem HandleSend_offers_min_witness :
    (120 : Nat) = min 120 (1000 - 700) ∧ 120 ≤ 1000 - 700 ∧ 120 ≤ 120 :=
  HandleSend_offers_min ⟨32, 32⟩ ⟨700, 1000, true, 3⟩ ⟨820, 1000, true, 3⟩ 120 (fun n => n)
    ⟨[120], 120, false⟩ 120 (by decide) (by decide) rfl (by decide)

/-- C5, counterexample: a session accepted by `HandleAccept` receives the
request "5" while the socket has room for 5 bytes, which the transport takes;
the record is then `(5, 5, send, 0)`. The next `HandleSend`, with `txSpace = 0`,
takes the completion branch: it clears both counters and `send`, increments
`currentSegmentIndex`, and so changes the record at capacity 0. -/
theorem HandleSend_zero_capacity_counterexample :
    (⟨0, 0, false, 0⟩ : callbackData).HandleRead ⟨32, 32⟩ [53, 0] ⟨[], 0⟩ 5 (fun n => n)
      = .ok (⟨5, 5, true, 0⟩, ⟨[5], 5, false⟩) ∧
    (⟨5, 5, true, 0⟩ : callbackData).HandleSend ⟨32, 32⟩ 0 (fun n => n)
      = .ok (⟨0, 0, false, 1⟩, ⟨[], 0, true⟩) ∧
    (⟨0, 0, false, 1⟩ : callbackData) ≠ ⟨5, 5, true, 0⟩ :=
  ⟨rfl, rfl, by decide⟩

/-- C5, amended: on an idle record with `currentTxBytes = 0`, and on a sending
record with `currentTxBytes < packetSizeToReturn`, `HandleSend` with
`txSpace = 0` returns, changes no field, offers nothing to the transport and
does not complete a segment. -/
theorem HandleSend_zero_capacity_noop (W : FieldWidths) (cbd : callbackData) (Send : Nat → Int)
    (hidle : cbd.send = false → cbd.currentTxBytes = 0)
    (hsending : cbd.send = true → cbd.currentTxBytes < cbd.packetSizeToReturn) :
    cbd.HandleSend W 0 Send = .ok (cbd, ⟨[], 0, false⟩) := by
  simp only [callbackData.HandleSend]
  cases hs : cbd.send
  · have h0 := hidle hs
    simp [h0]
  · have hlt := hsending hs
    have hne : cbd.currentTxBytes ≠ cbd.packetSizeToReturn := Nat.ne_of_lt hlt
    have hng : ¬ cbd.currentTxBytes > cbd.packetSizeToReturn := by omega
    simp [hne, hng]

/-- Witness of C5 amended: a record that has sent 700 of 1000 bytes. -/
theorem HandleSend_zero_capacity_noop_witness :
    (⟨700, 1000, true, 3⟩ : callbackData).HandleSend ⟨32, 32⟩ 0 (fun n => n)
      = .ok (⟨700, 1000, true, 3⟩, ⟨[], 0, false⟩) :=
  HandleSend_zero_capacity_noop ⟨32, 32⟩ ⟨700, 1000, true, 3⟩ (fun n => n) (by decide)
    (by decide)

/-- C9: on a sending record with `currentTxBytes < packetSizeToReturn` and
`txSpace > 0`, when `socket->Send` reports 0 bytes accepted `HandleSend`
returns with every field unchanged, having called `Send` once. -/
theorem HandleSend_nothing_accepted (W : FieldWidths) (cbd : callbackData) (txSpace : Nat)
    (Send : Nat → Int) (hsend : cbd.send = true)
    (hlt : cbd.currentTxBytes < cbd.packetSizeToReturn) (htx : 0 < txSpace)
    (hzero : Send (min txSpace ((cbd.packetSizeToReturn - cbd.currentTxBytes) % 2 ^ 32)) = 0) :
    cbd.HandleSend W txSpace Send
      = .ok (cbd, ⟨[min txSpace ((cbd.packetSizeToReturn - cbd.currentTxBytes) % 2 ^ 32)],
                   0, false⟩) := by
  have hne : cbd.currentTxBytes ≠ cbd.packetSizeToReturn := Nat.ne_of_lt hlt
  have hng : ¬ cbd.currentTxBytes > cbd.packetSizeToReturn := by omega
  simp only [callbackData.HandleSend, hzero]
  simp [hsend, hne, hng, htx]

/-- Witness of C9: 300 bytes remain, the socket reports room for 120 and the
transport takes none of the 120 bytes offered. -/
theorem HandleSend_nothing_accepted_witness :
    (⟨700, 1000, true, 3⟩ : callbackData).HandleSend ⟨32, 32⟩ 120 (fun _ => 0)
      = .ok (⟨700, 1000, true, 3⟩, ⟨[120], 0, false⟩) :=
  HandleSend_nothing_accepted ⟨32, 32⟩ ⟨700, 1000, true, 3⟩ 120 (fun _ => 0) rfl (by decide)
    (by decide) rfl

/-- The index after `HandleSend`, and when the completion branch is the one
taken. -/
theorem HandleSend_index (W : FieldWidths) (cbd cbd1 : callbackData) (txSpace : Nat)
    (Send : Nat → Int) (r : SendRecord) (h : cbd.HandleSend W txSpace Send = .ok (cbd1, r)) :
    cbd1.currentSegmentIndex
      = (if r.completed then (cbd.currentSegmentIndex + 1) % 2 ^ W.segmentIndexBits
         else cbd.currentSegmentIndex) ∧
    (r.completed = true ↔
      cbd.send = true ∧ cbd.currentTxBytes = cbd.packetSizeToReturn) := by
  simp only [callbackData.HandleSend] at h
  split_ifs at h with h1 h2 h3 h4 h5 h6 <;>
    simp only [Except.ok.injEq, Prod.mk.injEq, reduceCtorEq] at h
  all_goals
    obtain ⟨rfl, rfl⟩ := h
    simp_all

/-- The index after `HandleRead`, and when its call of `HandleSend` takes the
completion branch. -/
theorem HandleRead_index (W : FieldWidths) (cbd cbd1 : callbackData) (packet : List Nat)
    (ind : Indeterminate) (txAvailable : Nat) (Send : Nat → Int) (r : SendRecord)
    (h : cbd.HandleRead W packet ind txAvailable Send = .ok (cbd1, r)) :
    cbd1.currentSegmentIndex
      = (if r.completed then (cbd.currentSegmentIndex + 1) % 2 ^ W.segmentIndexBits
         else cbd.currentSegmentIndex) ∧
    (r.completed = true ↔ (GetCommand packet ind % 2 ^ W.byteCountBits).toNat = 0) := by
  simp only [callbackData.HandleRead] at h
  split_ifs at h with h1
  have h2 := HandleSend_index W _ cbd1 txAvailable Send r h
  refine ⟨h2.1, ?_⟩
  rw [h2.2]
  simp only [true_and]
  exact eq_comm

/-- C6, counterexample: with 32-bit fields, a record whose
`currentSegmentIndex` is 4294967295 and whose segment is fully sent is
completed by `HandleSend`, and its index afterwards is 0: smaller than before,
neither unchanged nor one greater. -/
theorem segment_index_wraps_counterexample :
    (⟨5, 5, true, 4294967295⟩ : callbackData).HandleSend ⟨32, 32⟩ 0 (fun n => n)
      = .ok (⟨0, 0, false, 0⟩, ⟨[], 0, true⟩) ∧
    ¬ ((0 : Nat) = 4294967295 ∨ (0 : Nat) = 4294967295 + 1) ∧ (0 : Nat) < 4294967295 :=
  ⟨rfl, by decide, by decide⟩

/-- C6, amended: on a record whose `currentSegmentIndex` is below the largest
value of its type, a `HandleSend` or `HandleRead` that returns leaves the
index unchanged or exactly one greater, never smaller, and one greater exactly
when the completion branch is taken: for `HandleSend`, when on entry `send`
is set and `currentTxBytes == packetSizeToReturn`; for `HandleRead`, when the
request size it stored is 0. -/
theorem segment_index_step (W : FieldWidths) (cbd : callbackData)
    (hmax : cbd.currentSegmentIndex + 1 < 2 ^ W.segmentIndexBits) :
    (∀ (txSpace : Nat) (Send : Nat → Int) (cbd1 : callbackData) (r : SendRecord),
      cbd.HandleSend W txSpace Send = .ok (cbd1, r) →
        (cbd1.currentSegmentIndex = cbd.currentSegmentIndex ∨
          cbd1.currentSegmentIndex = cbd.currentSegmentIndex + 1) ∧
        cbd.currentSegmentIndex ≤ cbd1.currentSegmentIndex ∧
        (cbd1.currentSegmentIndex = cbd.currentSegmentIndex + 1 ↔ r.completed = true) ∧
        (r.completed = true ↔
          cbd.send = true ∧ cbd.currentTxBytes = cbd.packetSizeToReturn)) ∧
    (∀ (packet : List Nat) (ind : Indeterminate) (txAvailable : Nat) (Send : Nat → Int)
        (cbd1 : callbackData) (r : SendRecord),
      cbd.HandleRead W packet ind txAvailable Send = .ok (cbd1, r) →
        (cbd1.currentSegmentIndex = cbd.currentSegmentIndex ∨
          cbd1.currentSegmentIndex = cbd.currentSegmentIndex + 1) ∧
        cbd.currentSegmentIndex ≤ cbd1.currentSegmentIndex ∧
        (cbd1.currentSegmentIndex = cbd.currentSegmentIndex + 1 ↔ r.completed = true) ∧
        (r.completed = true ↔ (GetCommand packet ind % 2 ^ W.byteCountBits).toNat = 0)) := by
  have hmod : (cbd.currentSegmentIndex + 1) % 2 ^ W.segmentIndexBits
      = cbd.currentSegmentIndex + 1 := Nat.mod_eq_of_lt hmax
  constructor
  · intro txSpace Send cbd1 r h
    obtain ⟨hi, hc⟩ := HandleSend_index W cbd cbd1 txSpace Send r h
    rw [hmod] at hi
    refine ⟨?_, ?_, ?_, hc⟩ <;> cases hr : r.completed <;> simp [hr] at hi <;> simp [hi]
  · intro packet ind txAvailable Send cbd1 r h
    obtain ⟨hi, hc⟩ := HandleRead_index W cbd cbd1 packet ind txAvailable Send r h
    rw [hmod] at hi
    refine ⟨?_, ?_, ?_, hc⟩ <;> cases hr : r.completed <;> simp [hr] at hi <;> simp [hi]

/-- Witness of C6 amended: the record `(5, 5, send, 7)` is completed by
`HandleSend` and its index becomes 8; the idle record with index 7 that
receives the request "0" is completed by `HandleRead` and its index becomes
8. -/
theorem segment_index_step_witness :
    ((8 : Nat) = 7 + 1 ↔ (⟨[], 0, true⟩ : SendRecord).completed = true) ∧
    ((⟨0, 0, false, 8⟩ : callbackData).currentSegmentIndex = 7 + 1 ↔
      (⟨[], 0, true⟩ : SendRecord).completed = true) :=
  ⟨((segment_index_step ⟨32, 32⟩ ⟨5, 5, true, 7⟩ (by decide)).1 0 (fun n => n)
      ⟨0, 0, false, 8⟩ ⟨[], 0, true⟩ rfl).2.2.1,
   ((segment_index_step ⟨32, 32⟩ ⟨0, 0, false, 7⟩ (by decide)).2 [48, 0] ⟨[], 0⟩ 0
      (fun n => n) ⟨0, 0, false, 8⟩ ⟨[], 0, true⟩ rfl).2.2.1⟩

/-! ## Invariants of the reachable states -/

theorem HandleSend_idleClear (W : FieldWidths) (cbd cbd1 : callbackData) (txSpace : Nat)
    (Send : Nat → Int) (r : SendRecord) (hinv : cbd.idleClear)
    (h : cbd.HandleSend W txSpace Send = .ok (cbd1, r)) : cbd1.idleClear := by
  simp only [callbackData.HandleSend] at h
  split_ifs at h with h1 h2 h3 h4 h5 h6 <;>
    simp only [Except.ok.injEq, Prod.mk.injEq, reduceCtorEq] at h
  all_goals obtain ⟨rfl, -⟩ := h
  · exact hinv
  · intro _; exact ⟨rfl, rfl⟩
  · intro hs
    simp only [Bool.not_eq_true', Bool.not_eq_false] at h2
    simp only at hs
    rw [h2] at hs
    exact absurd hs (by decide)
  · exact hinv
  · exact hinv

theorem HandleRead_idleClear (W : FieldWidths) (cbd cbd1 : callbackData) (packet : List Nat)
    (ind : Indeterminate) (txAvailable : Nat) (Send : Nat → Int) (r : SendRecord)
    (h : cbd.HandleRead W packet ind txAvailable Send = .ok (cbd1, r)) : cbd1.idleClear := by
  simp only [callbackData.HandleRead] at h
  split_ifs at h with h1
  refine HandleSend_idleClear W _ cbd1 txAvailable Send r ?_ h
  intro hs
  exact absurd hs (by simp)

theorem HandleSend_withinRequest (W : FieldWidths) (cbd cbd1 : callbackData) (txSpace : Nat)
    (Send : Nat → Int) (r : SendRecord) (hS : ∀ n, Send n ≤ (n : Int))
    (hinv : cbd.withinRequest W)
    (h : cbd.HandleSend W txSpace Send = .ok (cbd1, r)) : cbd1.withinRequest W := by
  obtain ⟨hle, hlt⟩ := hinv
  simp only [callbackData.HandleSend] at h
  split_ifs at h with h1 h2 h3 h4 h5 h6 <;>
    simp only [Except.ok.injEq, Prod.mk.injEq, reduceCtorEq] at h
  all_goals obtain ⟨rfl, -⟩ := h
  · exact ⟨hle, hlt⟩
  · exact ⟨Nat.le_refl 0, by positivity⟩
  · have hb := hS (min txSpace ((cbd.packetSizeToReturn - cbd.currentTxBytes) % 2 ^ 32))
    have hm : min txSpace ((cbd.packetSizeToReturn - cbd.currentTxBytes) % 2 ^ 32)
        ≤ cbd.packetSizeToReturn - cbd.currentTxBytes :=
      le_trans (Nat.min_le_right _ _) (Nat.mod_le _ _)
    have ha : (Send (min txSpace
        ((cbd.packetSizeToReturn - cbd.currentTxBytes) % 2 ^ 32))).toNat
        ≤ cbd.packetSizeToReturn - cbd.currentTxBytes := by omega
    have hsum : cbd.currentTxBytes + (Send (min txSpace
        ((cbd.packetSizeToReturn - cbd.currentTxBytes) % 2 ^ 32))).toNat
        ≤ cbd.packetSizeToReturn := by omega
    refine ⟨?_, hlt⟩
    exact le_trans (Nat.mod_le _ _) hsum
  · exact ⟨hle, hlt⟩
  · exact ⟨hle, hlt⟩

theorem stored_request_lt (W : FieldWidths) (x : Int) :
    (x % 2 ^ W.byteCountBits).toNat < 2 ^ W.byteCountBits := by
  have hpos : (0 : Int) < 2 ^ W.byteCountBits := by positivity
  have h1 := Int.emod_lt_of_pos x hpos
  have h2 := Int.emod_nonneg x (ne_of_gt hpos)
  have h3 : ((x % 2 ^ W.byteCountBits).toNat : Int) = x % 2 ^ W.byteCountBits :=
    Int.toNat_of_nonneg h2
  have h4 : ((x % 2 ^ W.byteCountBits).toNat : Int) < ((2 ^ W.byteCountBits : Nat) : Int) := by
    rw [h3]; push_cast; exact h1
  exact_mod_cast h4

theorem HandleRead_withinRequest (W : FieldWidths) (cbd cbd1 : callbackData)
    (packet : List Nat) (ind : Indeterminate) (txAvailable : Nat) (Send : Nat → Int)
    (r : SendRecord) (hS : ∀ n, Send n ≤ (n : Int))
    (h : cbd.HandleRead W packet ind txAvailable Send = .ok (cbd1, r)) :
    cbd1.withinRequest W := by
  simp only [callbackData.HandleRead] at h
  split_ifs at h with h1
  refine HandleSend_withinRequest W _ cbd1 txAvailable Send r hS ?_ h
  exact ⟨Nat.zero_le _, stored_request_lt W _⟩

theorem HandleSend_not_sentMore (W : FieldWidths) (cbd : callbackData) (txSpace : Nat)
    (Send : Nat → Int) (hle : cbd.currentTxBytes ≤ cbd.packetSizeToReturn) :
    cbd.HandleSend W txSpace Send ≠ .error .sentMoreThanRequired := by
  simp only [callbackData.HandleSend]
  split_ifs <;> first | omega | simp

theorem HandleRead_not_sentMore (W : FieldWidths) (cbd : callbackData) (packet : List Nat)
    (ind : Indeterminate) (txAvailable : Nat) (Send : Nat → Int) :
    cbd.HandleRead W packet ind txAvailable Send ≠ .error .sentMoreThanRequired := by
  simp only [callbackData.HandleRead]
  split_ifs
  · simp
  · exact HandleSend_not_sentMore W _ txAvailable Send (Nat.zero_le _)

theorem HandleSend_not_idleWithTxBytes (W : FieldWidths) (cbd : callbackData) (txSpace : Nat)
    (Send : Nat → Int) (hinv : cbd.idleClear) :
    cbd.HandleSend W txSpace Send ≠ .error .idleWithTxBytes := by
  simp only [callbackData.HandleSend]
  split_ifs with h1 h2 h3 <;> try simp
  simp only [Bool.not_eq_true', beq_iff_eq] at h2 h3
  exact h3 (hinv h2).1

theorem HandleRead_not_idleWithTxBytes (W : FieldWidths) (cbd : callbackData)
    (packet : List Nat) (ind : Indeterminate) (txAvailable : Nat) (Send : Nat → Int) :
    cbd.HandleRead W packet ind txAvailable Send ≠ .error .idleWithTxBytes := by
  simp only [callbackData.HandleRead]
  split_ifs
  · simp
  · refine HandleSend_not_idleWithTxBytes W _ txAvailable Send ?_
    intro hs
    exact absurd hs (by simp)

theorem HandleSend_idle_noop (W : FieldWidths) (cbd : callbackData) (txSpace : Nat)
    (Send : Nat → Int) (hs : cbd.send = false) (hc : cbd.currentTxBytes = 0) :
    cbd.HandleSend W txSpace Send = .ok (cbd, ⟨[], 0, false⟩) := by
  simp [callbackData.HandleSend, hs, hc]

theorem session_initial (peer : Address) :
    TcpStreamServer.initial.session peer = ⟨0, 0, false, 0⟩ := rfl

theorem session_store (srv : TcpStreamServer) (peer other : Address) (cbd : callbackData) :
    (srv.store peer cbd).session other = if other = peer then cbd else srv.session other := by
  unfold TcpStreamServer.store TcpStreamServer.session Function.update
  by_cases h : other = peer <;> simp [h]

theorem session_HandleAccept (srv : TcpStreamServer) (peer other : Address) :
    (srv.HandleAccept peer).session other
      = if other = peer then ⟨0, 0, false, 0⟩ else srv.session other := by
  unfold TcpStreamServer.HandleAccept TcpStreamServer.session Function.update
  by_cases h : other = peer <;> simp [h]

theorem session_of_lookup (srv : TcpStreamServer) (peer : Address) (cbd : callbackData)
    (h : srv.m_callbackData peer = some cbd) : srv.session peer = cbd := by
  simp [TcpStreamServer.session, h]

/-- A property of the records that `HandleSend` and `HandleRead` preserve, for
the events allowed by `allowed`, holds of every record after one event. -/
theorem step_preserves (W : FieldWidths) (P : callbackData → Prop) (allowed : Event → Prop)
    (hzero : P ⟨0, 0, false, 0⟩)
    (hsend : ∀ peer cap cbd cbd1 r, allowed (.send peer cap) → P cbd →
      cbd.HandleSend W cap.txSpace cap.Send = .ok (cbd1, r) → P cbd1)
    (hread : ∀ peer packet ind cap cbd cbd1 r, allowed (.read peer packet ind cap) → P cbd →
      cbd.HandleRead W packet ind cap.txSpace cap.Send = .ok (cbd1, r) → P cbd1)
    (e : Event) (srv srv1 : TcpStreamServer) (he : allowed e)
    (hinv : ∀ peer, P (srv.session peer)) (h : srv.step W e = .ok srv1) :
    ∀ peer, P (srv1.session peer) := by
  intro other
  cases e with
  | accept peer =>
    simp only [TcpStreamServer.step, Except.ok.injEq] at h
    subst h
    rw [session_HandleAccept]
    split_ifs
    · exact hzero
    · exact hinv other
  | read peer packet ind cap =>
    simp only [TcpStreamServer.step, TcpStreamServer.HandleRead] at h
    cases hr : (srv.session peer).HandleRead W packet ind cap.txSpace cap.Send with
    | error a => simp [hr] at h
    | ok res =>
      obtain ⟨cbd1, r⟩ := res
      simp only [hr, Except.ok.injEq] at h
      subst h
      rw [session_store]
      split_ifs
      · exact hread peer packet ind cap _ cbd1 r he (hinv peer) hr
      · exact hinv other
  | send peer cap =>
    simp only [TcpStreamServer.step, TcpStreamServer.HandleSend] at h
    cases hr : (srv.session peer).HandleSend W cap.txSpace cap.Send with
    | error a => simp [hr] at h
    | ok res =>
      obtain ⟨cbd1, r⟩ := res
      simp only [hr, Except.ok.injEq] at h
      subst h
      rw [session_store]
      split_ifs
      · exact hsend peer cap _ cbd1 r he (hinv peer) hr
      · exact hinv other

/-- The same for a sequence of events. -/
theorem run_preserves (W : FieldWidths) (P : callbackData → Prop) (allowed : Event → Prop)
    (hzero : P ⟨0, 0, false, 0⟩)
    (hsend : ∀ peer cap cbd cbd1 r, allowed (.send peer cap) → P cbd →
      cbd.HandleSend W cap.txSpace cap.Send = .ok (cbd1, r) → P cbd1)
    (hread : ∀ peer packet ind cap cbd cbd1 r, allowed (.read peer packet ind cap) → P cbd →
      cbd.HandleRead W packet ind cap.txSpace cap.Send = .ok (cbd1, r) → P cbd1)
    (events : List Event) :
    ∀ (srv srv1 : TcpStreamServer), (∀ e ∈ events, allowed e) →
      (∀ peer, P (srv.session peer)) → srv.run W events = .ok srv1 →
      ∀ peer, P (srv1.session peer) := by
  induction events with
  | nil =>
    intro srv srv1 _ hinv h
    simp only [TcpStreamServer.run, Except.ok.injEq] at h
    subst h
    exact hinv
  | cons e es ih =>
    intro srv srv1 hall hinv h
    simp only [TcpStreamServer.run] at h
    cases hs : srv.step W e with
    | error a => simp [hs] at h
    | ok srv2 =>
      simp only [hs] at h
      have hinv2 := step_preserves W P allowed hzero hsend hread e srv srv2
        (hall e (List.mem_cons_self e es)) hinv hs
      exact ih srv2 srv1 (fun e1 he1 => hall e1 (List.mem_cons_of_mem e he1)) hinv2 h

/-- An abort that neither callback raises on a record with property `P` is not
raised during a sequence of events that starts with `P` on every record. -/
theorem run_never_aborts (W : FieldWidths) (P : callbackData → Prop) (allowed : Event → Prop)
    (a : Abort) (hzero : P ⟨0, 0, false, 0⟩)
    (hsend : ∀ peer cap cbd cbd1 r, allowed (.send peer cap) → P cbd →
      cbd.HandleSend W cap.txSpace cap.Send = .ok (cbd1, r) → P cbd1)
    (hread : ∀ peer packet ind cap cbd cbd1 r, allowed (.read peer packet ind cap) → P cbd →
      cbd.HandleRead W packet ind cap.txSpace cap.Send = .ok (cbd1, r) → P cbd1)
    (hsendA : ∀ peer cap cbd, allowed (.send peer cap) → P cbd →
      cbd.HandleSend W cap.txSpace cap.Send ≠ .error a)
    (hreadA : ∀ peer packet ind cap cbd, allowed (.read peer packet ind cap) → P cbd →
      cbd.HandleRead W packet ind cap.txSpace cap.Send ≠ .error a)
    (events : List Event) :
    ∀ (srv : TcpStreamServer), (∀ e ∈ events, allowed e) →
      (∀ peer, P (srv.session peer)) → srv.run W events ≠ .error a := by
  induction events with
  | nil =>
    intro srv _ _
    simp [TcpStreamServer.run]
  | cons e es ih =>
    intro srv hall hinv
    have he := hall e (List.mem_cons_self e es)
    simp only [TcpStreamServer.run]
    cases hs : srv.step W e with
    | error b =>
      simp only [ne_eq, Except.error.injEq]
      rintro rfl
      cases e with
      | accept peer => simp [TcpStreamServer.step] at hs
      | read peer packet ind cap =>
        simp only [TcpStreamServer.step, TcpStreamServer.HandleRead] at hs
        cases hr : (srv.session peer).HandleRead W packet ind cap.txSpace cap.Send with
        | error c =>
          simp only [hr, Except.error.injEq] at hs
          subst hs
          exact hreadA peer packet ind cap _ he (hinv peer) hr
        | ok res => simp [hr] at hs
      | send peer cap =>
        simp only [TcpStreamServer.step, TcpStreamServer.HandleSend] at hs
        cases hr : (srv.session peer).HandleSend W cap.txSpace cap.Send with
        | error c =>
          simp only [hr, Except.error.injEq] at hs
          subst hs
          exact hsendA peer cap _ he (hinv peer) hr
        | ok res => simp [hr] at hs
    | ok srv2 =>
      have hinv2 := step_preserves W P allowed hzero hsend hread e srv srv2 he hinv hs
      exact ih srv2 (fun e1 he1 => hall e1 (List.mem_cons_of_mem e he1)) hinv2

/-- C2: after any sequence of `HandleAccept`, `HandleRead` and `HandleSend`
events delivered to a new server, with any packets and capacities and a
transport that accepts at most the bytes offered, every session in
`m_callbackData` has `currentTxBytes <= packetSizeToReturn`, and no event of the
sequence aborts with "Server has sent more data than required for the current
segment." -/
theorem sent_never_exceeds_requested (W : FieldWidths) (events : List Event)
    (htransport : ∀ e ∈ events, e.atMostOffered) :
    (∀ srv, TcpStreamServer.initial.run W events = .ok srv →
      ∀ peer cbd, srv.m_callbackData peer = some cbd →
        cbd.currentTxBytes ≤ cbd.packetSizeToReturn) ∧
    TcpStreamServer.initial.run W events ≠ .error .sentMoreThanRequired := by
  have hzero : (⟨0, 0, false, 0⟩ : callbackData).withinRequest W :=
    ⟨Nat.le_refl 0, by positivity⟩
  have hsend : ∀ (peer : Address) (cap : Capacity) (cbd cbd1 : callbackData) (r : SendRecord),
      (Event.send peer cap).atMostOffered → cbd.withinRequest W →
      cbd.HandleSend W cap.txSpace cap.Send = .ok (cbd1, r) → cbd1.withinRequest W :=
    fun _ cap cbd cbd1 r hcap hinv h =>
      HandleSend_withinRequest W cbd cbd1 cap.txSpace cap.Send r hcap hinv h
  have hread : ∀ (peer : Address) (packet : List Nat) (ind : Indeterminate) (cap : Capacity)
      (cbd cbd1 : callbackData) (r : SendRecord),
      (Event.read peer packet ind cap).atMostOffered → cbd.withinRequest W →
      cbd.HandleRead W packet ind cap.txSpace cap.Send = .ok (cbd1, r) →
      cbd1.withinRequest W :=
    fun _ packet ind cap cbd cbd1 r hcap _ h =>
      HandleRead_withinRequest W cbd cbd1 packet ind cap.txSpace cap.Send r hcap h
  constructor
  · intro srv hrun peer cbd hlook
    have h := run_preserves W (callbackData.withinRequest W) Event.atMostOffered hzero hsend
      hread events TcpStreamServer.initial srv htransport (fun _ => hzero) hrun peer
    rw [session_of_lookup srv peer cbd hlook] at h
    exact h.1
  · exact run_never_aborts W (callbackData.withinRequest W) Event.atMostOffered
      .sentMoreThanRequired hzero hsend hread
      (fun _ cap cbd _ hinv => HandleSend_not_sentMore W cbd cap.txSpace cap.Send hinv.1)
      (fun _ packet ind cap cbd _ _ =>
        HandleRead_not_sentMore W cbd packet ind cap.txSpace cap.Send)
      events TcpStreamServer.initial htransport (fun _ => hzero)

/-- Witness of C2: peer 1 is accepted and requests 5 bytes while the socket has
room for 3, which the transport takes; a capacity event for 10 bytes follows,
of which the transport takes the 2 that are offered. -/
theorem sent_never_exceeds_requested_witness :
    (5 : Nat) ≤ 5 ∧
    TcpStreamServer.initial.run ⟨32, 32⟩
      [.accept 1, .read 1 [53, 0] ⟨[], 0⟩ ⟨3, fun n => n⟩, .send 1 ⟨10, fun n => n⟩]
      ≠ .error .sentMoreThanRequired :=
  have hev : ∀ e ∈ [Event.accept 1, .read 1 [53, 0] ⟨[], 0⟩ ⟨3, fun n => n⟩,
      .send 1 ⟨10, fun n => n⟩], e.atMostOffered := by
    intro e he
    simp only [List.mem_cons, List.mem_singleton, List.not_mem_nil, or_false] at he
    rcases he with rfl | rfl | rfl
    · trivial
    · intro n; exact le_refl _
    · intro n; exact le_refl _
  have h := sent_never_exceeds_requested ⟨32, 32⟩
    [.accept 1, .read 1 [53, 0] ⟨[], 0⟩ ⟨3, fun n => n⟩, .send 1 ⟨10, fun n => n⟩] hev
  ⟨h.1 (((TcpStreamServer.initial.HandleAccept 1).store 1 ⟨3, 5, true, 0⟩).store 1
      ⟨5, 5, true, 0⟩) rfl 1 ⟨5, 5, true, 0⟩ rfl, h.2⟩

/-- C10: after any sequence of `HandleAccept`, `HandleRead` and `HandleSend`
events delivered to a new server, every session in `m_callbackData` whose
`send` flag is clear has `currentTxBytes == 0` and `packetSizeToReturn == 0`,
and `HandleSend` on it returns without any change for every capacity; no event
of the sequence fails the assertion `currentTxBytes == 0` of the idle
branch. -/
theorem idle_session_is_clear (W : FieldWidths) (events : List Event) :
    (∀ srv, TcpStreamServer.initial.run W events = .ok srv →
      ∀ peer cbd, srv.m_callbackData peer = some cbd → cbd.send = false →
        (cbd.currentTxBytes = 0 ∧ cbd.packetSizeToReturn = 0) ∧
        ∀ (txSpace : Nat) (Send : Nat → Int),
          cbd.HandleSend W txSpace Send = .ok (cbd, ⟨[], 0, false⟩)) ∧
    TcpStreamServer.initial.run W events ≠ .error .idleWithTxBytes := by
  have hzero : (⟨0, 0, false, 0⟩ : callbackData).idleClear := fun _ => ⟨rfl, rfl⟩
  have hsend : ∀ (peer : Address) (cap : Capacity) (cbd cbd1 : callbackData) (r : SendRecord),
      True → cbd.idleClear →
      cbd.HandleSend W cap.txSpace cap.Send = .ok (cbd1, r) → cbd1.idleClear :=
    fun _ cap cbd cbd1 r _ hinv h =>
      HandleSend_idleClear W cbd cbd1 cap.txSpace cap.Send r hinv h
  have hread : ∀ (peer : Address) (packet : List Nat) (ind : Indeterminate) (cap : Capacity)
      (cbd cbd1 : callbackData) (r : SendRecord),
      True → cbd.idleClear →
      cbd.HandleRead W packet ind cap.txSpace cap.Send = .ok (cbd1, r) → cbd1.idleClear :=
    fun _ packet ind cap cbd cbd1 r _ _ h =>
      HandleRead_idleClear W cbd cbd1 packet ind cap.txSpace cap.Send r h
  constructor
  · intro srv hrun peer cbd hlook hidle
    have h := run_preserves W callbackData.idleClear (fun _ => True) hzero hsend
      hread events TcpStreamServer.initial srv (fun _ _ => trivial) (fun _ => hzero) hrun peer
    rw [session_of_lookup srv peer cbd hlook] at h
    exact ⟨h hidle, fun txSpace Send => HandleSend_idle_noop W cbd txSpace Send hidle (h hidle).1⟩
  · exact run_never_aborts W callbackData.idleClear (fun _ => True)
      .idleWithTxBytes hzero hsend hread
      (fun _ cap cbd _ hinv => HandleSend_not_idleWithTxBytes W cbd cap.txSpace cap.Send hinv)
      (fun _ packet ind cap cbd _ _ =>
        HandleRead_not_idleWithTxBytes W cbd packet ind cap.txSpace cap.Send)
      events TcpStreamServer.initial (fun _ _ => trivial) (fun _ => hzero)

/-! ## The bytes sent for one request -/

theorem dropWhile_append_of_all (p : Nat → Bool) (ws l : List Nat)
    (h : ∀ c ∈ ws, p c = true) : (ws ++ l).dropWhile p = l.dropWhile p := by
  induction ws with
  | nil => rfl
  | cons c cs ih =>
    have hc : p c = true := h c (List.mem_cons_self c cs)
    simp only [List.cons_append, List.dropWhile_cons, hc, if_true]
    exact ih (fun d hd => h d (List.mem_cons_of_mem c hd))

theorem takeWhile_append_of_all (p : Nat → Bool) (l rest : List Nat)
    (h : ∀ c ∈ l, p c = true) : (l ++ rest).takeWhile p = l ++ rest.takeWhile p := by
  induction l with
  | nil => rfl
  | cons c cs ih =>
    have hc : p c = true := h c (List.mem_cons_self c cs)
    simp only [List.cons_append, List.takeWhile_cons, hc, if_true]
    rw [ih (fun d hd => h d (List.mem_cons_of_mem c hd))]

theorem takeWhile_not_of_all (p : Nat → Bool) (ws : List Nat) (h : ∀ c ∈ ws, p c = true) :
    ws.takeWhile (fun c => !p c) = [] := by
  cases ws with
  | nil => rfl
  | cons c cs =>
    have hc : p c = true := h c (List.mem_cons_self c cs)
    simp [List.takeWhile_cons, hc]

theorem isdigit_not_isspace (c : Nat) (h : isdigit c = true) : isspace c = false := by
  simp only [isdigit, Bool.and_eq_true, decide_eq_true_eq] at h
  simp only [isspace, Bool.or_eq_false_iff, Bool.and_eq_false_iff, beq_eq_false_iff_ne,
    decide_eq_false_iff_not]
  omega

/-- The word extracted from a text made of whitespace, a word free of
whitespace, and a rest that is empty or starts with whitespace, is that
word. -/
theorem extractWord_delimited (ws word rest : List Nat) (hws : ∀ c ∈ ws, isspace c = true)
    (hword : ∀ c ∈ word, isspace c = false) (hne : word ≠ [])
    (hrest : rest.takeWhile (fun c => !isspace c) = []) :
    extractWord (ws ++ word ++ rest) = word := by
  unfold extractWord
  rw [List.append_assoc, dropWhile_append_of_all isspace ws _ hws]
  cases word with
  | nil => exact absurd rfl hne
  | cons c cs =>
    have hc : isspace c = false := hword c (List.mem_cons_self c cs)
    have hdrop : ((c :: cs) ++ rest).dropWhile isspace = (c :: cs) ++ rest := by
      simp [List.dropWhile_cons, hc]
    rw [hdrop, takeWhile_append_of_all (fun c => !isspace c) (c :: cs) rest
      (fun d hd => by simp [hword d hd]), hrest, List.append_nil]

theorem digitsValue_append (ds : List Nat) (c : Nat) :
    digitsValue (ds ++ [c]) = 10 * digitsValue ds + (c - 48) := by
  simp [digitsValue, List.foldl_append]

theorem digitsValue_reverse_digits (L : List Nat) :
    digitsValue (L.reverse.map (fun d => d + 48)) = Nat.ofDigits 10 L := by
  induction L with
  | nil => rfl
  | cons d L ih =>
    rw [List.reverse_cons, List.map_append, List.map_singleton, digitsValue_append, ih,
      Nat.ofDigits_cons]
    omega

theorem digitsValue_decimalText (n : Nat) : digitsValue (decimalText n) = n := by
  unfold decimalText
  split_ifs with h0
  · subst h0; rfl
  · rw [digitsValue_reverse_digits, Nat.ofDigits_digits]

theorem decimalText_isdigit (n : Nat) : ∀ c ∈ decimalText n, isdigit c = true := by
  intro c hc
  unfold decimalText at hc
  split_ifs at hc with h0
  · simp only [List.mem_singleton] at hc
    subst hc; rfl
  · simp only [List.mem_map, List.mem_reverse] at hc
    obtain ⟨d, hd, rfl⟩ := hc
    have hlt : d < 10 := Nat.digits_lt_base (by norm_num) hd
    simp only [isdigit, Bool.and_eq_true, decide_eq_true_eq]
    omega

theorem decimalText_ne_nil (n : Nat) : decimalText n ≠ [] := by
  unfold decimalText
  split_ifs with h0
  · simp
  · simp only [ne_eq, List.map_eq_nil_iff, List.reverse_eq_nil_iff]
    exact fun h => h0 (Nat.digits_eq_nil_iff_eq_zero.mp h)

theorem takeWhile_of_all (p : Nat → Bool) (l : List Nat) (h : ∀ c ∈ l, p c = true) :
    l.takeWhile p = l := by
  have := takeWhile_append_of_all p l [] h
  simpa using this

/-- The extraction from a non-empty string of digits of value below `2 ^ 63`
stores that value. -/
theorem extractInt64_digits (ds : List Nat) (u : Int) (hds : ∀ c ∈ ds, isdigit c = true)
    (hne : ds ≠ []) (hval : digitsValue ds < 2 ^ 63) :
    extractInt64 ds u = (digitsValue ds : Int) := by
  cases ds with
  | nil => exact absurd rfl hne
  | cons c cs =>
    have hc : isdigit c = true := hds c (List.mem_cons_self c cs)
    have hc1 : 48 ≤ c ∧ c ≤ 57 := by
      simpa only [isdigit, Bool.and_eq_true, decide_eq_true_eq] using hc
    have h43 : (c == 43) = false := by simp; omega
    have h45 : (c == 45) = false := by simp; omega
    have htake : (c :: cs).takeWhile isdigit = c :: cs := takeWhile_of_all isdigit _ hds
    have hlt : ¬ ((digitsValue (c :: cs) : Nat) : Int) ≥ 2 ^ 63 := by
      have : ((digitsValue (c :: cs) : Nat) : Int) < ((2 ^ 63 : Nat) : Int) := by
        exact_mod_cast hval
      push_cast at this
      omega
    simp only [extractInt64, h43, h45, Bool.or_self, Bool.false_eq_true, if_false, htake,
      List.isEmpty_cons, hlt]

/-- When the characters that `ss << buffer` reads are whitespace, the decimal
text of `N` below `2 ^ 63`, and a rest that is empty or starts with whitespace,
`GetCommand` returns `N`. -/
theorem GetCommand_of_text (N : Nat) (packet : List Nat) (ind : Indeterminate)
    (ws rest : List Nat) (hN : N < 2 ^ 63) (hws : ∀ c ∈ ws, isspace c = true)
    (hrest : rest.takeWhile (fun c => !isspace c) = [])
    (htext : cString packet ind.afterBuffer = ws ++ decimalText N ++ rest) :
    GetCommand packet ind = (N : Int) := by
  unfold GetCommand
  simp only
  rw [htext, extractWord_delimited ws (decimalText N) rest hws
    (fun c hc => isdigit_not_isspace c (decimalText_isdigit N c hc)) (decimalText_ne_nil N)
    hrest,
    extractInt64_digits (decimalText N) _ (decimalText_isdigit N) (decimalText_ne_nil N)
      (by rw [digitsValue_decimalText]; exact hN),
    digitsValue_decimalText]

/-- C7, counterexample: the packet holds the two bytes "12", the decimal text
of 12, and the memory after the buffer holds "3" and a NUL byte; `ss << buffer`
reads on to the NUL and `GetCommand` returns 123. -/
theorem GetCommand_unterminated_counterexample :
    decimalText 12 = [49, 50] ∧ GetCommand [49, 50] ⟨[51, 0], 7⟩ = 123 ∧
    GetCommand [49, 50] ⟨[51, 0], 7⟩ ≠ 12 :=
  ⟨by norm_num [decimalText], by decide, by decide⟩

/-- C7, amended: for every `N` below `2 ^ 63`, `GetCommand` returns `N` for a
packet that holds the decimal text of `N`, optionally preceded by whitespace,
and followed by a NUL byte or a whitespace character; what the packet holds
after that, and what follows the buffer in memory, has no influence. -/
theorem GetCommand_decimalText (N : Nat) (ws tail : List Nat) (sep : Nat)
    (ind : Indeterminate) (hN : N < 2 ^ 63) (hws : ∀ c ∈ ws, isspace c = true)
    (hsep : sep = 0 ∨ isspace sep = true) :
    GetCommand (ws ++ decimalText N ++ sep :: tail) ind = (N : Int) := by
  have hnz : ∀ c ∈ ws ++ decimalText N, (fun c => c != 0) c = true := by
    intro c hc
    rcases List.mem_append.mp hc with h | h
    · have := hws c h
      simp only [bne_iff_ne, ne_eq]
      rintro rfl
      exact absurd this (by decide)
    · have := decimalText_isdigit N c h
      simp only [bne_iff_ne, ne_eq]
      rintro rfl
      exact absurd this (by decide)
  have hcs : cString (ws ++ decimalText N ++ sep :: tail) ind.afterBuffer
      = ws ++ decimalText N
          ++ (sep :: (tail ++ ind.afterBuffer)).takeWhile (fun c => c != 0) := by
    unfold cString
    rw [List.append_assoc (ws ++ decimalText N), takeWhile_append_of_all _ _ _ hnz]
    rfl
  refine GetCommand_of_text N _ ind ws _ hN hws ?_ hcs
  rcases hsep with rfl | h
  · simp [List.takeWhile_cons]
  · have hs0 : (sep != 0) = true := by
      simp only [bne_iff_ne, ne_eq]
      rintro rfl
      exact absurd h (by decide)
    simp [List.takeWhile_cons, hs0, h]

/-- Witness of C7 amended: the packet holds " 500" and the terminating NUL. -/
theorem GetCommand_decimalText_witness :
    GetCommand ([32] ++ decimalText 500 ++ 0 :: []) ⟨[55], 7⟩ = 500 :=
  GetCommand_decimalText 500 [32] [] 0 ⟨[55], 7⟩ (by norm_num) (by decide) (Or.inl rfl)

/-- C8, counterexample: the packets "12abc" and "abc" do not hold a
whitespace-delimited decimal integer, and `GetCommand` returns 12 and 0 for
them; `HandleRead` then starts a segment of 12 bytes for the first. -/
theorem GetCommand_malformed_counterexample :
    isDecimalRequest (cString [49, 50, 97, 98, 99, 0] []) = false ∧
    GetCommand [49, 50, 97, 98, 99, 0] ⟨[], 7⟩ = 12 ∧
    isDecimalRequest (cString [97, 98, 99, 0] []) = false ∧
    GetCommand [97, 98, 99, 0] ⟨[], 7⟩ = 0 ∧
    (⟨0, 0, false, 0⟩ : callbackData).HandleRead ⟨32, 32⟩ [49, 50, 97, 98, 99, 0] ⟨[], 7⟩ 0
      (fun n => n) = .ok (⟨0, 12, true, 0⟩, ⟨[], 0, false⟩) :=
  ⟨by decide, by decide, by decide, by decide, rfl⟩

/-- C8, amended: `GetCommand` has no failure result. For the first
whitespace-delimited word of the packet's text: when there is none, the
uninitialised local is returned; when it starts with a character that is
neither a digit nor a sign, 0 is returned; when it starts with digits of value
below `2 ^ 63` followed by a character that is not a digit, the value of those
digits is returned. -/
theorem GetCommand_not_an_integer (packet : List Nat) (ind : Indeterminate) :
    (extractWord (cString packet ind.afterBuffer) = [] →
      GetCommand packet ind = ind.uninitialised) ∧
    (∀ c rest, extractWord (cString packet ind.afterBuffer) = c :: rest →
      isdigit c = false → c ≠ 43 → c ≠ 45 → GetCommand packet ind = 0) ∧
    (∀ ds c rest, extractWord (cString packet ind.afterBuffer) = ds ++ c :: rest →
      ds ≠ [] → (∀ d ∈ ds, isdigit d = true) → isdigit c = false →
      digitsValue ds < 2 ^ 63 → GetCommand packet ind = (digitsValue ds : Int)) := by
  refine ⟨?_, ?_, ?_⟩
  · intro h
    simp only [GetCommand, h, extractInt64]
  · intro c rest h hc h43 h45
    have e43 : (c == 43) = false := by simpa using h43
    have e45 : (c == 45) = false := by simpa using h45
    simp [GetCommand, h, extractInt64, e43, e45, List.takeWhile_cons, hc]
  · intro ds c rest h hne hds hc hval
    cases ds with
    | nil => exact absurd rfl hne
    | cons d ds1 =>
      have hd : isdigit d = true := hds d (List.mem_cons_self d ds1)
      have hd1 : 48 ≤ d ∧ d ≤ 57 := by
        simpa only [isdigit, Bool.and_eq_true, decide_eq_true_eq] using hd
      have h43 : (d == 43) = false := by simp; omega
      have h45 : (d == 45) = false := by simp; omega
      have htake : ((d :: ds1) ++ c :: rest).takeWhile isdigit = d :: ds1 := by
        rw [takeWhile_append_of_all isdigit (d :: ds1) (c :: rest) hds]
        simp [List.takeWhile_cons, hc]
      have hlt : ¬ ((digitsValue (d :: ds1) : Nat) : Int) ≥ 2 ^ 63 := by
        have : ((digitsValue (d :: ds1) : Nat) : Int) < ((2 ^ 63 : Nat) : Int) := by
          exact_mod_cast hval
        push_cast at this
        omega
      have hcons : (d :: ds1) ++ c :: rest = d :: (ds1 ++ c :: rest) := rfl
      simp only [GetCommand, h]
      rw [hcons] at htake ⊢
      simp only [extractInt64, h43, h45, Bool.or_self, Bool.false_eq_true, if_false, htake,
        List.isEmpty_cons, hlt]

/-- Witness of C8 amended: the packet "12abc" decodes to 12. -/
theorem GetCommand_not_an_integer_witness :
    GetCommand [49, 50, 97, 98, 99, 0] ⟨[], 7⟩ = ((digitsValue [49, 50] : Nat) : Int) :=
  (GetCommand_not_an_integer [49, 50, 97, 98, 99, 0] ⟨[], 7⟩).2.2 [49, 50] 97 [98, 99] rfl
    (by decide) (by decide) rfl (by decide)

/-! ## Scenarios and behaviour of the callbacks -/

/-- C14 (scenario D): on a sending record with
`currentTxBytes < packetSizeToReturn`, `HandleSend` with capacity 0 returns,
passes nothing to `socket->Send`, leaves every field unchanged and does not
complete the segment. -/
theorem HandleSend_mid_transfer_no_capacity (W : FieldWidths) (cbd : callbackData)
    (Send : Nat → Int) (hsend : cbd.send = true)
    (hmid : cbd.currentTxBytes < cbd.packetSizeToReturn) :
    cbd.HandleSend W 0 Send = .ok (cbd, ⟨[], 0, false⟩) := by
  have hne : cbd.currentTxBytes ≠ cbd.packetSizeToReturn := Nat.ne_of_lt hmid
  have hng : ¬ cbd.currentTxBytes > cbd.packetSizeToReturn := Nat.not_lt.mpr (Nat.le_of_lt hmid)
  simp [callbackData.HandleSend, hsend, hne, hng]

/-- Witness of C14: 200000 of 500000 bytes are sent when a capacity event
reports no room. -/
theorem HandleSend_mid_transfer_no_capacity_witness :
    (⟨200000, 500000, true, 0⟩ : callbackData).HandleSend ⟨32, 32⟩ 0 (fun n => n)
      = .ok (⟨200000, 500000, true, 0⟩, ⟨[], 0, false⟩) :=
  HandleSend_mid_transfer_no_capacity ⟨32, 32⟩ ⟨200000, 500000, true, 0⟩ (fun n => n) rfl
    (by decide)

/-- C12, counterexample: with 32-bit fields, an idle record whose
`currentSegmentIndex` is 4294967295 receives the request "0"; `HandleRead`
completes it at once, and the index afterwards is 0, not one greater. -/
theorem request_zero_wraps_counterexample :
    (⟨0, 0, false, 4294967295⟩ : callbackData).HandleRead ⟨32, 32⟩ [48, 0] ⟨[], 0⟩ 1000
      (fun n => n) = .ok (⟨0, 0, false, 0⟩, ⟨[], 0, true⟩) ∧
    (0 : Nat) ≠ 4294967295 + 1 :=
  ⟨rfl, by decide⟩

/-- C12 (scenario B), amended: an idle record whose `currentSegmentIndex` is
below the largest value of its type receives a request that decodes to 0; for
every capacity the call of `HandleSend` made inside `HandleRead` completes it:
`HandleRead` returns with nothing offered to the transport, `send` clear,
`currentTxBytes` 0 and the index one greater. -/
theorem request_zero_completes (W : FieldWidths) (cbd : callbackData) (packet : List Nat)
    (ind : Indeterminate) (txAvailable : Nat) (Send : Nat → Int)
    (hsend : cbd.send = false) (hzero : cbd.currentTxBytes = 0)
    (hmax : cbd.currentSegmentIndex + 1 < 2 ^ W.segmentIndexBits)
    (hreq : GetCommand packet ind = 0) :
    cbd.HandleRead W packet ind txAvailable Send
      = .ok (⟨0, 0, false, cbd.currentSegmentIndex + 1⟩, ⟨[], 0, true⟩) := by
  simp [callbackData.HandleRead, callbackData.HandleSend, hsend, hzero, hreq,
    Nat.mod_eq_of_lt hmax]

/-- Witness of C12 amended: the record left by two completed segments receives
"0" while the socket has room for 1000 bytes. -/
theorem request_zero_completes_witness :
    (⟨0, 0, false, 2⟩ : callbackData).HandleRead ⟨32, 32⟩ [48, 0] ⟨[], 0⟩ 1000 (fun n => n)
      = .ok (⟨0, 0, false, 2 + 1⟩, ⟨[], 0, true⟩) :=
  request_zero_completes ⟨32, 32⟩ ⟨0, 0, false, 2⟩ [48, 0] ⟨[], 0⟩ 1000 (fun n => n) rfl rfl
    (by decide) (by decide)

/-- C18: when the transport accepts the last bytes of a segment, bringing
`currentTxBytes` to `packetSizeToReturn`, `HandleSend` returns without taking
the completion branch: `send` is still set and `currentSegmentIndex` is
unchanged; a `HandleRead` that comes next aborts with "Server received request
... before previous one was completed". -/
theorem final_bytes_do_not_complete (W : FieldWidths) (cbd : callbackData) (txSpace : Nat)
    (Send : Nat → Int) (hsend : cbd.send = true)
    (hmid : cbd.currentTxBytes < cbd.packetSizeToReturn)
    (hfit : cbd.packetSizeToReturn < 2 ^ W.byteCountBits) (htx : 0 < txSpace)
    (hlast : Send (min txSpace ((cbd.packetSizeToReturn - cbd.currentTxBytes) % 2 ^ 32))
      = ((cbd.packetSizeToReturn - cbd.currentTxBytes : Nat) : Int)) :
    cbd.HandleSend W txSpace Send
      = .ok (⟨cbd.packetSizeToReturn, cbd.packetSizeToReturn, true, cbd.currentSegmentIndex⟩,
             ⟨[min txSpace ((cbd.packetSizeToReturn - cbd.currentTxBytes) % 2 ^ 32)],
              cbd.packetSizeToReturn - cbd.currentTxBytes, false⟩) ∧
    ∀ (packet : List Nat) (ind : Indeterminate) (txAvailable : Nat) (Send1 : Nat → Int),
      (⟨cbd.packetSizeToReturn, cbd.packetSizeToReturn, true, cbd.currentSegmentIndex⟩ :
        callbackData).HandleRead W packet ind txAvailable Send1
        = .error .requestBeforeCompletion := by
  have hne : cbd.currentTxBytes ≠ cbd.packetSizeToReturn := Nat.ne_of_lt hmid
  have hng : ¬ cbd.currentTxBytes > cbd.packetSizeToReturn := Nat.not_lt.mpr (Nat.le_of_lt hmid)
  have hpos : (0 : Int) < ((cbd.packetSizeToReturn - cbd.currentTxBytes : Nat) : Int) := by
    have : 0 < cbd.packetSizeToReturn - cbd.currentTxBytes := Nat.sub_pos_of_lt hmid
    exact_mod_cast this
  have hsum : cbd.currentTxBytes + (cbd.packetSizeToReturn - cbd.currentTxBytes)
      = cbd.packetSizeToReturn := by omega
  constructor
  · obtain ⟨c, p, s, i⟩ := cbd
    simp only at hsend hmid hfit hlast hne hng hpos hsum
    subst hsend
    simp only [callbackData.HandleSend, hlast, if_neg hng, Bool.not_true, Bool.false_eq_true,
      if_false, beq_iff_eq, if_neg hne, htx, if_true, gt_iff_lt, hpos, Int.toNat_ofNat, hsum,
      Nat.mod_eq_of_lt hfit]
  · intro packet ind txAvailable Send1
    simp [callbackData.HandleRead]

/-- Witness of C18: 120 bytes remain of a segment of 1000, the socket has room
for 500 and the transport takes the 120 bytes offered. -/
theorem final_bytes_do_not_complete_witness :
    (⟨880, 1000, true, 3⟩ : callbackData).HandleSend ⟨32, 32⟩ 500 (fun n => n)
      = .ok (⟨1000, 1000, true, 3⟩, ⟨[120], 120, false⟩) ∧
    (⟨1000, 1000, true, 3⟩ : callbackData).HandleRead ⟨32, 32⟩ [55, 0] ⟨[], 0⟩ 500
      (fun n => n) = .error .requestBeforeCompletion :=
  have h := final_bytes_do_not_complete ⟨32, 32⟩ ⟨880, 1000, true, 3⟩ 500 (fun n => n) rfl
    (by decide) (by decide) (by decide) rfl
  ⟨h.1, h.2 [55, 0] ⟨[], 0⟩ 500 (fun n => n)⟩

/-- C16, counterexample: peer 1 has a session that has sent 3 of 5 bytes of
its third segment; `HandleAccept` for peer 1 again returns as for a new peer,
replaces that session by an idle one and enters the peer in
`m_connectedClients` a second time. -/
theorem HandleAccept_again_counterexample :
    (((TcpStreamServer.initial.HandleAccept 1).store 1 ⟨3, 5, true, 2⟩).HandleAccept
      1).m_callbackData 1 = some ⟨0, 0, false, 0⟩ ∧
    (((TcpStreamServer.initial.HandleAccept 1).store 1 ⟨3, 5, true, 2⟩).HandleAccept
      1).m_connectedClients = [1, 1] ∧
    ((TcpStreamServer.initial.HandleAccept 1).store 1 ⟨3, 5, true, 2⟩).m_callbackData 1
      = some ⟨3, 5, true, 2⟩ :=
  ⟨rfl, rfl, rfl⟩

/-- C16, amended: `HandleAccept` has no failure result; for a peer that
already has a session it replaces the session by an idle one with all counters
0 and appends the peer to `m_connectedClients` once more, leaving the sessions
of other peers as they are. -/
theorem HandleAccept_again_overwrites (srv : TcpStreamServer) (peer : Address)
    (cbd : callbackData) (hhas : srv.m_callbackData peer = some cbd) :
    (srv.HandleAccept peer).m_callbackData peer = some ⟨0, 0, false, 0⟩ ∧
    (srv.HandleAccept peer).m_connectedClients = srv.m_connectedClients ++ [peer] ∧
    ∀ other, other ≠ peer →
      (srv.HandleAccept peer).m_callbackData other = srv.m_callbackData other := by
  have _ := hhas
  refine ⟨?_, rfl, ?_⟩
  · simp [TcpStreamServer.HandleAccept]
  · intro other hne
    simp [TcpStreamServer.HandleAccept, Function.update, hne]

/-- Witness of C16 amended: peer 1 is accepted twice. -/
theorem HandleAccept_again_overwrites_witness :
    ((TcpStreamServer.initial.HandleAccept 1).HandleAccept 1).m_connectedClients
      = (TcpStreamServer.initial.HandleAccept 1).m_connectedClients ++ [1] :=
  (HandleAccept_again_overwrites (TcpStreamServer.initial.HandleAccept 1) 1 ⟨0, 0, false, 0⟩
    rfl).2.1

/-- C19: for two distinct peers that have sessions in `m_callbackData`, a
`HandleRead` or a `HandleSend` for the first, with any packet, capacity and
answer of the transport, leaves the session of the second as it is. -/
theorem other_session_unchanged (W : FieldWidths) (srv : TcpStreamServer) (a b : Address)
    (cbdA cbdB : callbackData) (hab : a ≠ b) (hA : srv.m_callbackData a = some cbdA)
    (hB : srv.m_callbackData b = some cbdB) :
    (∀ (txSpace : Nat) (Send : Nat → Int) (srv1 : TcpStreamServer) (r : SendRecord),
      srv.HandleSend W a txSpace Send = .ok (srv1, r) → srv1.m_callbackData b = some cbdB) ∧
    (∀ (packet : List Nat) (ind : Indeterminate) (txAvailable : Nat) (Send : Nat → Int)
        (srv1 : TcpStreamServer) (r : SendRecord),
      srv.HandleRead W a packet ind txAvailable Send = .ok (srv1, r) →
        srv1.m_callbackData b = some cbdB) := by
  have _ := hA
  have hba : b ≠ a := fun h => hab h.symm
  constructor
  · intro txSpace Send srv1 r h
    simp only [TcpStreamServer.HandleSend] at h
    cases hr : (srv.session a).HandleSend W txSpace Send with
    | error e => simp [hr] at h
    | ok res =>
      simp only [hr, Except.ok.injEq, Prod.mk.injEq] at h
      obtain ⟨rfl, -⟩ := h
      simp [TcpStreamServer.store, Function.update, hba, hB]
  · intro packet ind txAvailable Send srv1 r h
    simp only [TcpStreamServer.HandleRead] at h
    cases hr : (srv.session a).HandleRead W packet ind txAvailable Send with
    | error e => simp [hr] at h
    | ok res =>
      simp only [hr, Except.ok.injEq, Prod.mk.injEq] at h
      obtain ⟨rfl, -⟩ := h
      simp [TcpStreamServer.store, Function.update, hba, hB]

/-- Witness of C19: peers 1 and 2 are accepted, peer 2 is sending; peer 1
requests 5 bytes, of which 3 are sent at once. -/
theorem other_session_unchanged_witness :
    (((TcpStreamServer.initial.HandleAccept 1).store 2 ⟨3, 9, true, 4⟩).store 1
      ⟨3, 5, true, 0⟩).m_callbackData 2 = some ⟨3, 9, true, 4⟩ :=
  (other_session_unchanged ⟨32, 32⟩
    ((TcpStreamServer.initial.HandleAccept 1).store 2 ⟨3, 9, true, 4⟩) 1 2 ⟨0, 0, false, 0⟩
    ⟨3, 9, true, 4⟩ (by decide) rfl rfl).2 [53, 0] ⟨[], 0⟩ 3 (fun n => n)
    (((TcpStreamServer.initial.HandleAccept 1).store 2 ⟨3, 9, true, 4⟩).store 1
      ⟨3, 5, true, 0⟩) ⟨[3], 3, false⟩ rfl

/-- C15: `StartApplication` from the state without sockets leaves `m_socket`
bound to the IPv4 any-address and listening, and `m_socket6` bound to the IPv6
any-address but not listening: the second block calls `Listen` on `m_socket`
again. -/
theorem StartApplication_socket6_not_listening (port : Nat) :
    (StartApplication ⟨port, none, none⟩).m_socket = some ⟨some (.ipv4, port), true⟩ ∧
    (StartApplication ⟨port, none, none⟩).m_socket6 = some ⟨some (.ipv6, port), false⟩ := by
  exact ⟨rfl, rfl⟩

/-! ## Closing connections -/

theorem eraseFirst_length (peer : Address) (l l1 : List Address)
    (h : eraseFirst peer l = some l1) : l.length = l1.length + 1 := by
  induction l generalizing l1 with
  | nil => simp [eraseFirst] at h
  | cons a rest ih =>
    simp only [eraseFirst] at h
    split_ifs at h with ha
    · simp only [Option.some.injEq] at h
      subst h; rfl
    · cases he : eraseFirst peer rest with
      | none => simp [he] at h
      | some l2 =>
        simp only [he, Option.map_some', Option.some.injEq] at h
        subst h
        simp [ih l2 he]

/-- `Simulator::Stop ()` is called by a `HandlePeerClose` exactly when clients
were connected before it and none is after it. -/
theorem HandlePeerClose_stops_iff (srv : TcpStreamServer) (peer : Address) :
    (srv.HandlePeerClose peer).2 = true ↔
      srv.m_connectedClients ≠ [] ∧ (srv.HandlePeerClose peer).1.m_connectedClients = [] := by
  unfold TcpStreamServer.HandlePeerClose
  cases he : eraseFirst peer srv.m_connectedClients with
  | none =>
    simp only [Bool.false_eq_true, false_iff, not_and]
    intro h1 h2
    exact h1 h2
  | some clients =>
    have hlen := eraseFirst_length peer _ clients he
    simp only [beq_iff_eq, List.length_eq_zero]
    constructor
    · intro h
      refine ⟨?_, h⟩
      intro h0
      rw [h0] at hlen
      simp at hlen
    · intro h
      exact h.2

theorem HandlePeerClose_clients_of_nil (srv : TcpStreamServer) (peer : Address)
    (h : srv.m_connectedClients = []) :
    (srv.HandlePeerClose peer).1.m_connectedClients = [] := by
  unfold TcpStreamServer.HandlePeerClose
  rw [h]
  simp [eraseFirst, h]

theorem HandlePeerClose_clients_ne_nil (srv : TcpStreamServer) (peer : Address)
    (h : (srv.HandlePeerClose peer).1.m_connectedClients ≠ []) :
    srv.m_connectedClients ≠ [] :=
  fun h0 => h (HandlePeerClose_clients_of_nil srv peer h0)

theorem closeAll_clients_of_nil (peers : List Address) :
    ∀ (srv : TcpStreamServer), srv.m_connectedClients = [] →
      (srv.closeAll peers).1.m_connectedClients = [] := by
  induction peers with
  | nil => intro srv h; exact h
  | cons peer peers ih =>
    intro srv h
    simp only [TcpStreamServer.closeAll]
    exact ih _ (HandlePeerClose_clients_of_nil srv peer h)

/-- The number of calls of `Simulator::Stop ()` during a sequence of close
events: one when clients were connected and none is at the end, else none. -/
theorem closeAll_count (peers : List Address) :
    ∀ (srv : TcpStreamServer),
      (srv.closeAll peers).2.count true
        = if srv.m_connectedClients ≠ [] ∧ (srv.closeAll peers).1.m_connectedClients = []
          then 1 else 0 := by
  induction peers with
  | nil =>
    intro srv
    simp [TcpStreamServer.closeAll]
  | cons peer peers ih =>
    intro srv
    simp only [TcpStreamServer.closeAll]
    have hiff := HandlePeerClose_stops_iff srv peer
    have hrest := ih (srv.HandlePeerClose peer).1
    cases hflag : (srv.HandlePeerClose peer).2 with
    | true =>
      obtain ⟨hne, hnil⟩ := hiff.mp hflag
      have hend := closeAll_clients_of_nil peers _ hnil
      rw [List.count_cons_self, hrest]
      simp [hne, hnil, hend]
    | false =>
      have hmid : (srv.HandlePeerClose peer).1.m_connectedClients ≠ [] ↔
          srv.m_connectedClients ≠ [] := by
        constructor
        · exact HandlePeerClose_clients_ne_nil srv peer
        · intro hne hnil
          have := hiff.mpr ⟨hne, hnil⟩
          rw [hflag] at this
          exact absurd this (by decide)
      rw [List.count_cons_of_ne (by decide), hrest]
      simp only [hmid]

theorem closeAll_append (pre : List Address) :
    ∀ (srv : TcpStreamServer) (peer : Address) (post : List Address),
      (srv.closeAll (pre ++ peer :: post)).2
        = (srv.closeAll pre).2 ++ ((srv.closeAll pre).1.HandlePeerClose peer).2 ::
            (((srv.closeAll pre).1.HandlePeerClose peer).1.closeAll post).2 := by
  induction pre with
  | nil => intro srv peer post; rfl
  | cons q pre ih =>
    intro srv peer post
    have h := ih (srv.HandlePeerClose q).1 peer post
    simp only [List.cons_append, TcpStreamServer.closeAll, List.cons.injEq, true_and]
    exact h

theorem acceptAll_clients_aux (conns : List Address) :
    ∀ (srv : TcpStreamServer),
      (conns.foldl TcpStreamServer.HandleAccept srv).m_connectedClients
        = srv.m_connectedClients ++ conns := by
  induction conns with
  | nil => intro srv; simp
  | cons c conns ih =>
    intro srv
    simp only [List.foldl_cons, ih, TcpStreamServer.HandleAccept, List.append_assoc,
      List.singleton_append]

theorem acceptAll_clients (conns : List Address) :
    (TcpStreamServer.acceptAll conns).m_connectedClients = conns := by
  unfold TcpStreamServer.acceptAll
  rw [acceptAll_clients_aux]
  rfl

/-- The loop of `HandlePeerClose` finds an entry exactly when `peer` is in the
list, and then leaves the list without the first entry equal to `peer`. -/
theorem eraseFirst_eq (peer : Address) (l : List Address) :
    eraseFirst peer l = if peer ∈ l then some (l.erase peer) else none := by
  induction l with
  | nil => simp [eraseFirst]
  | cons a rest ih =>
    by_cases ha : a = peer
    · subst ha
      simp [eraseFirst]
    · have hne : peer ≠ a := fun h => ha h.symm
      have hbeq : (a == peer) = false := by simpa using ha
      simp only [eraseFirst, if_neg ha, ih, List.erase_cons, hbeq]
      by_cases hin : peer ∈ rest
      · simp [hin, hne]
      · simp [hin, hne]

/-- A `HandlePeerClose` takes the entry of a connected peer out of
`m_connectedClients` and leaves the list as it is for any other peer. -/
theorem HandlePeerClose_clients (srv : TcpStreamServer) (peer : Address) :
    (srv.HandlePeerClose peer).1.m_connectedClients = srv.m_connectedClients.erase peer := by
  unfold TcpStreamServer.HandlePeerClose
  rw [eraseFirst_eq]
  split_ifs with h
  · rfl
  · exact (List.erase_of_not_mem h).symm

/-- The clients left by a sequence of close events, when no client is
registered twice: those that no event of the sequence names. -/
theorem closeAll_clients (peers : List Address) :
    ∀ (srv : TcpStreamServer), srv.m_connectedClients.Nodup →
      (srv.closeAll peers).1.m_connectedClients
        = srv.m_connectedClients.filter (fun c => decide (c ∉ peers)) := by
  induction peers with
  | nil =>
    intro srv _
    simp [TcpStreamServer.closeAll]
  | cons peer peers ih =>
    intro srv hnd
    have hstep := HandlePeerClose_clients srv peer
    have hnd1 : (srv.HandlePeerClose peer).1.m_connectedClients.Nodup := by
      rw [hstep]; exact hnd.erase peer
    simp only [TcpStreamServer.closeAll]
    rw [ih _ hnd1, hstep, hnd.erase_eq_filter peer, List.filter_filter]
    apply List.filter_congr
    intro c _
    by_cases h2 : c = peer <;> by_cases h1 : c ∈ peers <;> simp [h1, h2]

/-- In a list without repetition, only `peer` is left exactly when `peer` is in
the list and every other entry has been filtered out. -/
theorem filter_eq_singleton (conns pre : List Address) (peer : Address)
    (hnd : conns.Nodup) :
    conns.filter (fun c => decide (c ∉ pre)) = [peer] ↔
      peer ∈ conns ∧ peer ∉ pre ∧ ∀ c ∈ conns, c ≠ peer → c ∈ pre := by
  constructor
  · intro h
    have hmem : ∀ c, c ∈ conns.filter (fun c => decide (c ∉ pre)) ↔ c = peer := by
      intro c; rw [h]; simp
    have hp := (hmem peer).mpr rfl
    simp only [List.mem_filter, decide_eq_true_eq] at hp
    refine ⟨hp.1, hp.2, ?_⟩
    intro c hc hne
    by_contra hnot
    have : c ∈ conns.filter (fun c => decide (c ∉ pre)) := by
      simp only [List.mem_filter, decide_eq_true_eq]
      exact ⟨hc, hnot⟩
    exact hne ((hmem c).mp this)
  · rintro ⟨hin, hnot, hall⟩
    have hnd1 : (conns.filter (fun c => decide (c ∉ pre))).Nodup := hnd.filter _
    have hmem : ∀ c, c ∈ conns.filter (fun c => decide (c ∉ pre)) ↔ c ∈ [peer] := by
      intro c
      simp only [List.mem_filter, decide_eq_true_eq, List.mem_singleton]
      constructor
      · rintro ⟨hc, hcn⟩
        by_contra hne
        exact hcn (hall c hc hne)
      · rintro rfl
        exact ⟨hin, hnot⟩
    have hperm : (conns.filter (fun c => decide (c ∉ pre))).Perm [peer] :=
      (List.perm_ext_iff_of_nodup hnd1 (List.nodup_singleton peer)).mpr hmem
    exact List.perm_singleton.mp hperm

/-- C13 (scenario C): distinct connections `conns` are registered by
`HandleAccept` and any sequence `closes` of `HandlePeerClose` events follows.
Each event takes the entry of its peer out of `m_connectedClients` when that
peer is still connected and changes nothing otherwise, so that the clients left
are the connections that no event so far has named. An event calls
`Simulator::Stop ()` exactly when its peer is a connection that has not been
closed before and every other connection has been: when it removes the last
remaining entry, not while another client stays connected and not once the
list is empty. Over the whole sequence the call is made once when every
connection is closed, and not at all otherwise. -/
theorem stop_at_last_close (conns closes : List Address) (hdistinct : conns.Nodup) :
    ((TcpStreamServer.acceptAll conns).closeAll closes).1.m_connectedClients
      = conns.filter (fun c => decide (c ∉ closes)) ∧
    ((TcpStreamServer.acceptAll conns).closeAll closes).2.count true
      = (if conns ≠ [] ∧ ∀ c ∈ conns, c ∈ closes then 1 else 0) ∧
    ((TcpStreamServer.acceptAll conns).closeAll closes).2.count true
      = (if conns ≠ [] ∧
            ((TcpStreamServer.acceptAll conns).closeAll closes).1.m_connectedClients = []
         then 1 else 0) ∧
    ∀ pre peer post, closes = pre ++ peer :: post →
      ((TcpStreamServer.acceptAll conns).closeAll pre).1.m_connectedClients
        = conns.filter (fun c => decide (c ∉ pre)) ∧
      (((TcpStreamServer.acceptAll conns).closeAll pre).1.HandlePeerClose
          peer).1.m_connectedClients
        = conns.filter (fun c => decide (c ∉ pre ++ [peer])) ∧
      ((TcpStreamServer.acceptAll conns).closeAll closes).2
        = ((TcpStreamServer.acceptAll conns).closeAll pre).2 ++
            (((TcpStreamServer.acceptAll conns).closeAll pre).1.HandlePeerClose peer).2 ::
            ((((TcpStreamServer.acceptAll conns).closeAll pre).1.HandlePeerClose
              peer).1.closeAll post).2 ∧
      ((((TcpStreamServer.acceptAll conns).closeAll pre).1.HandlePeerClose peer).2 = true ↔
        peer ∈ conns ∧ peer ∉ pre ∧ ∀ c ∈ conns, c ≠ peer → c ∈ pre) ∧
      ((((TcpStreamServer.acceptAll conns).closeAll pre).1.HandlePeerClose peer).2 = true ↔
        ((TcpStreamServer.acceptAll conns).closeAll pre).1.m_connectedClients ≠ [] ∧
        (((TcpStreamServer.acceptAll conns).closeAll pre).1.HandlePeerClose
          peer).1.m_connectedClients = []) := by
  have hstart : (TcpStreamServer.acceptAll conns).m_connectedClients.Nodup := by
    rw [acceptAll_clients]; exact hdistinct
  have hclients : ∀ peers, ((TcpStreamServer.acceptAll conns).closeAll peers).1.m_connectedClients
      = conns.filter (fun c => decide (c ∉ peers)) := by
    intro peers
    rw [closeAll_clients peers _ hstart, acceptAll_clients]
  have hcount := closeAll_count closes (TcpStreamServer.acceptAll conns)
  rw [acceptAll_clients] at hcount
  refine ⟨hclients closes, ?_, hcount, ?_⟩
  · rw [hcount, hclients closes]
    have hiff : conns.filter (fun c => decide (c ∉ closes)) = [] ↔ ∀ c ∈ conns, c ∈ closes := by
      simp [List.filter_eq_nil_iff]
    simp only [hiff]
  · intro pre peer post hsplit
    subst hsplit
    have hbefore := hclients pre
    have hafter : (((TcpStreamServer.acceptAll conns).closeAll pre).1.HandlePeerClose
        peer).1.m_connectedClients = conns.filter (fun c => decide (c ∉ pre ++ [peer])) := by
      have hnd : (conns.filter (fun c => decide (c ∉ pre))).Nodup := hdistinct.filter _
      rw [HandlePeerClose_clients, hbefore, hnd.erase_eq_filter peer, List.filter_filter]
      apply List.filter_congr
      intro c _
      by_cases h2 : c = peer <;> by_cases h1 : c ∈ pre <;> simp [h1, h2]
    have hold := HandlePeerClose_stops_iff ((TcpStreamServer.acceptAll conns).closeAll pre).1 peer
    refine ⟨hbefore, hafter, closeAll_append pre _ peer post, ?_, hold⟩
    rw [hold, hafter, hbefore]
    constructor
    · rintro ⟨hne, hnil⟩
      have hall : ∀ c ∈ conns, c ∈ pre ∨ c = peer := by
        intro c hc
        have := (List.filter_eq_nil_iff.mp hnil) c hc
        simp only [List.mem_append, List.mem_singleton, decide_not, Bool.not_eq_true',
          decide_eq_false_iff_not, not_not] at this
        exact this
      obtain ⟨c0, hc0⟩ := List.exists_mem_of_ne_nil _ hne
      simp only [List.mem_filter, decide_eq_true_eq] at hc0
      have hc0p : c0 = peer := (hall c0 hc0.1).resolve_left hc0.2
      subst hc0p
      exact ⟨hc0.1, hc0.2, fun c hc hcne => (hall c hc).resolve_right hcne⟩
    · rintro ⟨hin, hnot, hall⟩
      constructor
      · intro hnil
        have := (List.filter_eq_nil_iff.mp hnil) peer hin
        simp only [decide_eq_true_eq] at this
        exact this hnot
      · rw [List.filter_eq_nil_iff]
        intro c hc
        simp only [List.mem_append, List.mem_singleton, decide_eq_true_eq, not_not]
        by_cases hcp : c = peer
        · exact Or.inr hcp
        · exact Or.inl (hall c hc hcp)

/-- Witness of C13: peers 1, 2 and 3 connect; 2 closes, an unknown peer 9
closes, 1 and 3 close, then 3 and 9 close again. The stop is signalled at the
fourth event only, the first close of peer 3, when 1 and 2 are closed. -/
theorem stop_at_last_close_witness :
    ((TcpStreamServer.acceptAll [1, 2, 3]).closeAll [2, 9, 1, 3, 3, 9]).2
      = [false, false, false, true, false, false] ∧
    ((TcpStreamServer.acceptAll [1, 2, 3]).closeAll [2, 9, 1, 3, 3, 9]).2.count true
      = (if ([1, 2, 3] : List Address) ≠ [] ∧
            ∀ c ∈ ([1, 2, 3] : List Address), c ∈ ([2, 9, 1, 3, 3, 9] : List Address)
         then 1 else 0) ∧
    ((((TcpStreamServer.acceptAll [1, 2, 3]).closeAll [2, 9, 1]).1.HandlePeerClose 3).2 = true ↔
      3 ∈ ([1, 2, 3] : List Address) ∧ 3 ∉ ([2, 9, 1] : List Address) ∧
      ∀ c ∈ ([1, 2, 3] : List Address), c ≠ 3 → c ∈ ([2, 9, 1] : List Address)) :=
  have h := stop_at_last_close [1, 2, 3] [2, 9, 1, 3, 3, 9] (by decide)
  ⟨rfl, h.2.1, (h.2.2.2 [2, 9, 1] 3 [3, 9] rfl).2.2.2.1⟩

/-! ## Scenario A -/

/-- Capacity events for one peer act on its session as `sendAll` does. -/
theorem run_sends (W : FieldWidths) (peer : Address) (caps : List Capacity) :
    ∀ (srv : TcpStreamServer) (cbd cbd2 : callbackData) (rs : List SendRecord),
      srv.m_callbackData peer = some cbd → cbd.sendAll W caps = .ok (cbd2, rs) →
      ∃ srv1, srv.run W (caps.map (Event.send peer)) = .ok srv1 ∧
        srv1.m_callbackData peer = some cbd2 := by
  induction caps with
  | nil =>
    intro srv cbd cbd2 rs hlook h
    simp only [callbackData.sendAll, Except.ok.injEq, Prod.mk.injEq] at h
    obtain ⟨rfl, -⟩ := h
    exact ⟨srv, rfl, hlook⟩
  | cons cap caps ih =>
    intro srv cbd cbd2 rs hlook h
    simp only [callbackData.sendAll] at h
    cases h0 : cbd.HandleSend W cap.txSpace cap.Send with
    | error e => simp [h0] at h
    | ok res =>
      obtain ⟨cbd1, r0⟩ := res
      simp only [h0] at h
      cases h1 : cbd1.sendAll W caps with
      | error e => simp [h1] at h
      | ok res1 =>
        obtain ⟨cbd3, rs1⟩ := res1
        simp only [h1, Except.ok.injEq, Prod.mk.injEq] at h
        obtain ⟨rfl, -⟩ := h
        have hstore : (srv.store peer cbd1).m_callbackData peer = some cbd1 := by
          simp [TcpStreamServer.store]
        obtain ⟨srv1, hrun, hfin⟩ := ih (srv.store peer cbd1) cbd1 cbd3 rs1 hstore h1
        refine ⟨srv1, ?_, hfin⟩
        simp only [List.map_cons, TcpStreamServer.run, TcpStreamServer.step,
          TcpStreamServer.HandleSend, session_of_lookup srv peer cbd hlook, h0]
        exact hrun

/-- A capacity event with room for `m` bytes, all taken by the transport,
advances a segment that has at least `m` bytes left by `m` bytes. -/
theorem HandleSend_full_chunk (W : FieldWidths) (c p i m : Nat) (hm : 0 < m)
    (hroom : c + m ≤ p) (h32 : p < 2 ^ 32) (hfit : p < 2 ^ W.byteCountBits) :
    (⟨c, p, true, i⟩ : callbackData).HandleSend W m (fun n => n)
      = .ok (⟨c + m, p, true, i⟩, ⟨[m], m, false⟩) := by
  have hne : c ≠ p := by omega
  have hng : ¬ c > p := by omega
  have hrem : (p - c) % 2 ^ 32 = p - c := Nat.mod_eq_of_lt (by omega)
  have hmin : min m (p - c) = m := Nat.min_eq_left (by omega)
  have hpos : (0 : Int) < (m : Int) := by exact_mod_cast hm
  have hmod : (c + m) % 2 ^ W.byteCountBits = c + m := Nat.mod_eq_of_lt (by omega)
  simp only [callbackData.HandleSend, hrem, hmin, if_neg hng, Bool.not_true,
    Bool.false_eq_true, if_false, beq_iff_eq, if_neg hne, gt_iff_lt, hm, if_true, hpos,
    Int.toNat_ofNat, hmod]

/-- After `k` such events, followed by other events, the record is the one the
other events leave from the record advanced by `k * m` bytes. -/
theorem sendAll_full_chunks (W : FieldWidths) (p i m : Nat) (hm : 0 < m) (h32 : p < 2 ^ 32)
    (hfit : p < 2 ^ W.byteCountBits) (rest : List Capacity) (k : Nat) :
    ∀ (c : Nat) (cbd2 : callbackData) (rs : List SendRecord), c + k * m ≤ p →
      (⟨c + k * m, p, true, i⟩ : callbackData).sendAll W rest = .ok (cbd2, rs) →
      ∃ rs1, (⟨c, p, true, i⟩ : callbackData).sendAll W
          (List.replicate k (⟨m, fun n => n⟩ : Capacity) ++ rest) = .ok (cbd2, rs1) := by
  induction k with
  | zero =>
    intro c cbd2 rs _ h
    simp only [Nat.zero_mul, Nat.add_zero] at h
    exact ⟨rs, by simpa using h⟩
  | succ k ih =>
    intro c cbd2 rs hroom h
    have hle : c + m + k * m ≤ p := by
      have : (k + 1) * m = k * m + m := Nat.succ_mul k m
      omega
    have heq : c + m + k * m = c + (k + 1) * m := by
      have : (k + 1) * m = k * m + m := Nat.succ_mul k m
      omega
    rw [← heq] at h
    obtain ⟨rs1, hrs1⟩ := ih (c + m) cbd2 rs hle h
    have hstep := HandleSend_full_chunk W c p i m hm (by omega) h32 hfit
    refine ⟨⟨[m], m, false⟩ :: rs1, ?_⟩
    rw [List.replicate_succ, List.cons_append]
    simp only [callbackData.sendAll, hstep]
    rw [hrs1]

theorem GetCommand_500000 (ind : Indeterminate) :
    GetCommand [53, 48, 48, 48, 48, 48, 0] ind = 500000 := by
  simp [GetCommand, cString, extractWord, extractInt64, digitsValue, isspace, isdigit,
    List.takeWhile, List.dropWhile]

/-- The request of scenario A, read while the socket reports no capacity,
leaves the record `(0, 500000, send, 0)`. -/
theorem scenarioA_request (W : FieldWidths) (ind : Indeterminate)
    (hbits : 500000 < 2 ^ W.byteCountBits) :
    (⟨0, 0, false, 0⟩ : callbackData).HandleRead W [53, 48, 48, 48, 48, 48, 0] ind 0
      (fun n => n) = .ok (⟨0, 500000, true, 0⟩, ⟨[], 0, false⟩) := by
  have hstored : ((500000 : Int) % 2 ^ W.byteCountBits).toNat = 500000 := by
    have h1 : ((500000 : Int) % 2 ^ W.byteCountBits)
        = ((500000 % 2 ^ W.byteCountBits : Nat) : Int) := by
      push_cast; rfl
    rw [h1, Int.toNat_ofNat, Nat.mod_eq_of_lt hbits]
  simp [callbackData.HandleRead, callbackData.HandleSend, GetCommand_500000, hstored]

/-- Scenario A delivered up to the given capacity events, which leave `cbd2`
from the record of the request. -/
theorem scenarioA_run (W : FieldWidths) (peer : Address) (ind : Indeterminate) (k : Nat)
    (cbd2 : callbackData) (rs : List SendRecord) (hbits : 500000 < 2 ^ W.byteCountBits)
    (h : (⟨0, 500000, true, 0⟩ : callbackData).sendAll W
      (List.replicate k (⟨1000, fun n => n⟩ : Capacity)) = .ok (cbd2, rs)) :
    ∃ srv, TcpStreamServer.initial.run W (scenarioA peer ind k) = .ok srv ∧
      srv.m_callbackData peer = some cbd2 := by
  have hstore : (((TcpStreamServer.initial.HandleAccept peer).store peer
      ⟨0, 500000, true, 0⟩)).m_callbackData peer = some ⟨0, 500000, true, 0⟩ := by
    simp [TcpStreamServer.store]
  obtain ⟨srv, hrun, hfin⟩ := run_sends W peer _ _ _ cbd2 rs hstore h
  refine ⟨srv, ?_, hfin⟩
  have hsess : (TcpStreamServer.initial.HandleAccept peer).session peer = ⟨0, 0, false, 0⟩ := by
    rw [session_HandleAccept]; simp
  simp only [scenarioA, TcpStreamServer.run, TcpStreamServer.step, TcpStreamServer.HandleRead,
    hsess, scenarioA_request W ind hbits]
  exact hrun

/-- After `k <= 500` capacity events of scenario A the session has sent
`1000 * k` bytes and is still sending its first segment. -/
theorem scenarioA_progress (W : FieldWidths) (peer : Address) (ind : Indeterminate) (k : Nat)
    (hbits : 500000 < 2 ^ W.byteCountBits) (hk : k ≤ 500) :
    ∃ srv, TcpStreamServer.initial.run W (scenarioA peer ind k) = .ok srv ∧
      srv.m_callbackData peer = some ⟨1000 * k, 500000, true, 0⟩ := by
  obtain ⟨rs1, h⟩ := sendAll_full_chunks W 500000 0 1000 (by norm_num) (by norm_num) hbits []
    k 0 ⟨0 + k * 1000, 500000, true, 0⟩ [] (by omega) rfl
  rw [List.append_nil] at h
  have hk2 : 0 + k * 1000 = 1000 * k := by omega
  rw [hk2] at h
  exact scenarioA_run W peer ind k _ rs1 hbits h

/-- C11, counterexample: with 32-bit fields, after exactly 500 capacity events
of scenario A all 500000 bytes are sent, but `send` is still set and
`currentSegmentIndex` is still 0: the completion has not fired. -/
theorem scenarioA_500_events_counterexample :
    ∃ srv, TcpStreamServer.initial.run ⟨32, 32⟩ (scenarioA 1 ⟨[], 0⟩ 500) = .ok srv ∧
      srv.m_callbackData 1 = some ⟨500000, 500000, true, 0⟩ :=
  scenarioA_progress ⟨32, 32⟩ 1 ⟨[], 0⟩ 500 (by norm_num) (Nat.le_refl 500)

/-- C11 (scenario A), amended: a newly accepted session receives a request for
500000 bytes while the socket reports no capacity, and capacity events for
1000 bytes follow, all taken by the transport. After exactly 501 such events
the completion has fired: `currentSegmentIndex` is 1 and `send` is clear.
After any smaller number `k` of events the session has sent `1000 * k` bytes,
`send` is still set and the index is still 0. -/
theorem scenarioA_completes_at_501 (W : FieldWidths) (peer : Address) (ind : Indeterminate)
    (hbits : 500000 < 2 ^ W.byteCountBits) (hidx : 1 < 2 ^ W.segmentIndexBits) :
    (∃ srv, TcpStreamServer.initial.run W (scenarioA peer ind 501) = .ok srv ∧
      srv.m_callbackData peer = some ⟨0, 0, false, 1⟩) ∧
    ∀ k, k < 501 →
      ∃ srv, TcpStreamServer.initial.run W (scenarioA peer ind k) = .ok srv ∧
        srv.m_callbackData peer = some ⟨1000 * k, 500000, true, 0⟩ := by
  constructor
  · have hlast : (⟨0 + 500 * 1000, 500000, true, 0⟩ : callbackData).sendAll W
        [(⟨1000, fun n => n⟩ : Capacity)]
        = .ok (⟨0, 0, false, 1⟩, [⟨[], 0, true⟩]) := by
      simp [callbackData.sendAll, callbackData.HandleSend, Nat.mod_eq_of_lt hidx]
    obtain ⟨rs1, h⟩ := sendAll_full_chunks W 500000 0 1000 (by norm_num) (by norm_num) hbits
      [(⟨1000, fun n => n⟩ : Capacity)] 500 0 ⟨0, 0, false, 1⟩ [⟨[], 0, true⟩] (by norm_num)
      hlast
    have hrep : List.replicate 500 (⟨1000, fun n => n⟩ : Capacity)
        ++ [(⟨1000, fun n => n⟩ : Capacity)]
        = List.replicate 501 (⟨1000, fun n => n⟩ : Capacity) := by
      rw [← List.replicate_succ']
    rw [hrep] at h
    exact scenarioA_run W peer ind 501 _ rs1 hbits h
  · intro k hk
    exact scenarioA_progress W peer ind k hbits (by omega)

/-- Witness of C11 amended: 32-bit fields, peer 1. -/
theorem scenarioA_completes_at_501_witness :
    ∃ srv, TcpStreamServer.initial.run ⟨32, 32⟩ (scenarioA 1 ⟨[], 0⟩ 501) = .ok srv ∧
      srv.m_callbackData 1 = some ⟨0, 0, false, 1⟩ :=
  (scenarioA_completes_at_501 ⟨32, 32⟩ 1 ⟨[], 0⟩ (by norm_num) (by norm_num)).1

/-! ## Completion within `N + 1` invocations -/

/-- On an idle record with `currentTxBytes = 0` every `HandleSend` returns
without a change. -/
theorem sendAll_idle (W : FieldWidths) (cbd : callbackData) (hs : cbd.send = false)
    (hc : cbd.currentTxBytes = 0) (caps : List Capacity) :
    ∃ rs, cbd.sendAll W caps = .ok (cbd, rs) := by
  induction caps with
  | nil => exact ⟨[], rfl⟩
  | cons cap caps ih =>
    obtain ⟨rs, hrs⟩ := ih
    refine ⟨⟨[], 0, false⟩ :: rs, ?_⟩
    simp only [callbackData.sendAll, HandleSend_idle_noop W cbd cap.txSpace cap.Send hs hc, hrs]

/-- A sending record within its request, with byte counters of at most 32
bits, is completed by a sequence of capacity events that is longer than the
number of bytes still to send, when every event reports room and the transport
takes at least one byte each time. -/
theorem sendAll_drains (W : FieldWidths) (hW : W.byteCountBits ≤ 32) (caps : List Capacity) :
    ∀ (cbd : callbackData), (∀ cap ∈ caps, cap.acceptsSome) → cbd.withinRequest W →
      cbd.send = true → cbd.packetSizeToReturn - cbd.currentTxBytes + 1 ≤ caps.length →
      ∃ rs, cbd.sendAll W caps
        = .ok (⟨0, 0, false, (cbd.currentSegmentIndex + 1) % 2 ^ W.segmentIndexBits⟩, rs) := by
  induction caps with
  | nil =>
    intro cbd _ _ _ hlen
    simp at hlen
  | cons cap caps ih =>
    intro cbd hcaps hinv hsend hlen
    obtain ⟨c, p, s, i⟩ := cbd
    obtain ⟨hle, hlt⟩ := hinv
    simp only at hle hlt hsend hlen ⊢
    subst hsend
    have h32 : p < 2 ^ 32 := lt_of_lt_of_le hlt (Nat.pow_le_pow_right (by norm_num) hW)
    obtain ⟨htx, hSend⟩ := hcaps cap (List.mem_cons_self cap caps)
    by_cases hcp : c = p
    · subst hcp
      have hstep : (⟨c, c, true, i⟩ : callbackData).HandleSend W cap.txSpace cap.Send
          = .ok (⟨0, 0, false, (i + 1) % 2 ^ W.segmentIndexBits⟩, ⟨[], 0, true⟩) := by
        simp [callbackData.HandleSend]
      obtain ⟨rs, hrs⟩ := sendAll_idle W
        ⟨0, 0, false, (i + 1) % 2 ^ W.segmentIndexBits⟩ rfl rfl caps
      exact ⟨⟨[], 0, true⟩ :: rs, by simp only [callbackData.sendAll, hstep, hrs]⟩
    · have hclt : c < p := lt_of_le_of_ne hle hcp
      have hng : ¬ c > p := by omega
      have hrem : (p - c) % 2 ^ 32 = p - c := Nat.mod_eq_of_lt (by omega)
      have hoff : 1 ≤ min cap.txSpace (p - c) := by
        have : 1 ≤ p - c := by omega
        exact Nat.le_min.mpr ⟨htx, this⟩
      obtain ⟨ha1, ha2⟩ := hSend _ hoff
      have hmin : min cap.txSpace (p - c) ≤ p - c := Nat.min_le_right _ _
      have hpos : 0 < cap.Send (min cap.txSpace (p - c)) := by omega
      have hnat : c + (cap.Send (min cap.txSpace (p - c))).toNat ≤ p := by omega
      have hadv : 1 ≤ (cap.Send (min cap.txSpace (p - c))).toNat := by omega
      have hmod : (c + (cap.Send (min cap.txSpace (p - c))).toNat) % 2 ^ W.byteCountBits
          = c + (cap.Send (min cap.txSpace (p - c))).toNat := Nat.mod_eq_of_lt (by omega)
      have hstep : (⟨c, p, true, i⟩ : callbackData).HandleSend W cap.txSpace cap.Send
          = .ok (⟨c + (cap.Send (min cap.txSpace (p - c))).toNat, p, true, i⟩,
                 ⟨[min cap.txSpace (p - c)], (cap.Send (min cap.txSpace (p - c))).toNat,
                  false⟩) := by
        have htx0 : 0 < cap.txSpace := htx
        simp only [callbackData.HandleSend, hrem, if_neg hng, Bool.not_true,
          Bool.false_eq_true, if_false, beq_iff_eq, if_neg hcp, gt_iff_lt, htx0, if_true,
          hpos, hmod]
      have hlen1 : p - (c + (cap.Send (min cap.txSpace (p - c))).toNat) + 1 ≤ caps.length := by
        simp only [List.length_cons] at hlen
        omega
      obtain ⟨rs, hrs⟩ := ih ⟨c + (cap.Send (min cap.txSpace (p - c))).toNat, p, true, i⟩
        (fun cap1 h1 => hcaps cap1 (List.mem_cons_of_mem cap h1)) ⟨hnat, hlt⟩ rfl hlen1
      exact ⟨⟨[min cap.txSpace (p - c)], (cap.Send (min cap.txSpace (p - c))).toNat, false⟩
        :: rs, by simp only [callbackData.sendAll, hstep, hrs]⟩

/-- C17, counterexample: with 32-bit fields, an idle record whose
`currentSegmentIndex` is 4294967295 receives the request "1"; the byte is sent
by the call of `HandleSend` inside `HandleRead`, the next invocation completes
the segment, and the index is then 0, not one greater than before. -/
theorem completion_index_wraps_counterexample :
    (⟨0, 0, false, 4294967295⟩ : callbackData).HandleRead ⟨32, 32⟩ [49, 0] ⟨[], 0⟩ 1
      (fun n => n) = .ok (⟨1, 1, true, 4294967295⟩, ⟨[1], 1, false⟩) ∧
    (⟨1, 1, true, 4294967295⟩ : callbackData).sendAll ⟨32, 32⟩
      [(⟨1, fun n => n⟩ : Capacity)] = .ok (⟨0, 0, false, 0⟩, [⟨[], 0, true⟩]) ∧
    (0 : Nat) ≠ 4294967295 + 1 :=
  ⟨rfl, rfl, by decide⟩

/-- C17, amended: an idle record whose `currentSegmentIndex` is below the
largest value of its type receives a request that decodes to `N >= 0`; when
every `HandleSend` invocation, the one inside `HandleRead` included, is given
a capacity of at least 1 and the transport takes between 1 byte and the bytes
offered, then after the invocation inside `HandleRead` and `N` or more further
ones, that is from `N + 1` invocations on, the record is idle again with
`currentTxBytes` 0 and the index one greater than before the request. The byte
counters are unsigned fields of at most 32 bits. -/
theorem completes_within_request_plus_one (W : FieldWidths) (cbd : callbackData)
    (packet : List Nat) (ind : Indeterminate) (first : Capacity) (caps : List Capacity)
    (N : Nat) (hW : W.byteCountBits ≤ 32) (hsend : cbd.send = false)
    (hzero : cbd.currentTxBytes = 0)
    (hmax : cbd.currentSegmentIndex + 1 < 2 ^ W.segmentIndexBits)
    (hN : GetCommand packet ind = (N : Int)) (hfirst : first.acceptsSome)
    (hcaps : ∀ cap ∈ caps, cap.acceptsSome) (hlen : N ≤ caps.length) :
    ∃ cbd1 r0 rs,
      cbd.HandleRead W packet ind first.txSpace first.Send = .ok (cbd1, r0) ∧
      cbd1.sendAll W caps = .ok (⟨0, 0, false, cbd.currentSegmentIndex + 1⟩, rs) := by
  have hstored : (GetCommand packet ind % 2 ^ W.byteCountBits).toNat
      = N % 2 ^ W.byteCountBits := by
    rw [hN]
    have h1 : ((N : Int) % 2 ^ W.byteCountBits) = ((N % 2 ^ W.byteCountBits : Nat) : Int) := by
      push_cast; rfl
    rw [h1, Int.toNat_ofNat]
  have hread : cbd.HandleRead W packet ind first.txSpace first.Send
      = (⟨0, N % 2 ^ W.byteCountBits, true, cbd.currentSegmentIndex⟩ :
          callbackData).HandleSend W first.txSpace first.Send := by
    simp only [callbackData.HandleRead, hsend, hzero, hstored]
    simp
  have hall : ∀ cap ∈ first :: caps, cap.acceptsSome := by
    intro cap hcap
    rcases List.mem_cons.mp hcap with rfl | h
    · exact hfirst
    · exact hcaps cap h
  have hle : N % 2 ^ W.byteCountBits ≤ N := Nat.mod_le _ _
  obtain ⟨rs, hrun⟩ := sendAll_drains W hW (first :: caps)
    ⟨0, N % 2 ^ W.byteCountBits, true, cbd.currentSegmentIndex⟩ hall
    ⟨Nat.zero_le _, Nat.mod_lt _ (by positivity)⟩ rfl
    (by simp only [List.length_cons]; omega)
  rw [Nat.mod_eq_of_lt hmax] at hrun
  simp only [callbackData.sendAll] at hrun
  cases h0 : (⟨0, N % 2 ^ W.byteCountBits, true, cbd.currentSegmentIndex⟩ :
      callbackData).HandleSend W first.txSpace first.Send with
  | error a => simp [h0] at hrun
  | ok res =>
    obtain ⟨cbd1, r0⟩ := res
    simp only [h0] at hrun
    cases h1 : cbd1.sendAll W caps with
    | error a => simp [h1] at hrun
    | ok res1 =>
      obtain ⟨cbd3, rs1⟩ := res1
      simp only [h1, Except.ok.injEq, Prod.mk.injEq] at hrun
      obtain ⟨rfl, -⟩ := hrun
      exact ⟨cbd1, r0, rs1, by rw [hread, h0], h1⟩

/-- Witness of C17 amended: the request "3" on a new record; the socket has
room for 2 bytes each time and the transport takes 1, 1 and 1 bytes; the fourth
invocation completes the segment. -/
theorem completes_within_request_plus_one_witness :
    ∃ cbd1 r0 rs,
      (⟨0, 0, false, 0⟩ : callbackData).HandleRead ⟨32, 32⟩ [51, 0] ⟨[], 0⟩ 2 (fun _ => 1)
        = .ok (cbd1, r0) ∧
      cbd1.sendAll ⟨32, 32⟩ [⟨2, fun _ => 1⟩, ⟨2, fun _ => 1⟩, ⟨2, fun _ => 1⟩]
        = .ok (⟨0, 0, false, 0 + 1⟩, rs) :=
  have hcap : (⟨2, fun _ => 1⟩ : Capacity).acceptsSome :=
    ⟨by decide, fun n hn => ⟨le_refl _, by
      show (1 : Int) ≤ (n : Int)
      exact_mod_cast hn⟩⟩
  completes_within_request_plus_one ⟨32, 32⟩ ⟨0, 0, false, 0⟩ [51, 0] ⟨[], 0⟩
    ⟨2, fun _ => 1⟩ [⟨2, fun _ => 1⟩, ⟨2, fun _ => 1⟩, ⟨2, fun _ => 1⟩] 3 (by decide) rfl rfl
    (by decide) (by decide) hcap
    (by
      intro cap h
      simp only [List.mem_cons, List.mem_singleton, List.not_mem_nil, or_false, or_self] at h
      rw [h]
      exact hcap)
    (by decide)

end Dash
